import Mathlib

/-!
# Verification of the CinC2021 scoring engine of `torch_ecg`

This file embeds the metric functions of
`torch_ecg/databases/physionet_databases/cinc2021.py` (the scoring engine of
the PhysioNet/CinC 2021 challenge) and proves the claims of the
natural-language specification against them.

Modelling conventions:

* Numbers are exact rationals (`ℚ`).  The floating point value NaN, produced
  by the Python code on zero denominators and skipped by `np.nanmean`, is
  modelled as `none : Option ℚ`; arithmetic on `Option ℚ` propagates `none`
  exactly as IEEE arithmetic propagates NaN through `+`, `-`, `*`.
* Label / prediction / weight matrices are total functions `ℕ → ℕ → ℚ`
  together with explicit dimensions `R` (records) and `C` (classes).
* Python's `ValueError` is `Except.error`; for-loops that may raise are
  `List.foldlM` / `List.mapM` in the `Except` monad.
* In `_compute_auc` the label column is modelled as `Bool` (the function's
  documented contract is entries 0 or 1) and the score column as `ℚ`; one
  record of one class is a pair `Bool × ℚ`.
-/

namespace Cinc2021

/-! ## NaN-propagating rational arithmetic -/

/-- NaN-propagating addition (`none` is NaN). -/
def qAdd : Option ℚ → Option ℚ → Option ℚ
  | some a, some b => some (a + b)
  | _, _ => none

/-- NaN-propagating subtraction. -/
def qSub : Option ℚ → Option ℚ → Option ℚ
  | some a, some b => some (a - b)
  | _, _ => none

/-- NaN-propagating multiplication.  (`0 * NaN` is NaN in IEEE arithmetic,
so no short-circuit on zero.) -/
def qMul : Option ℚ → Option ℚ → Option ℚ
  | some a, some b => some (a * b)
  | _, _ => none

/-- `numpy.nanmean`: the mean of the non-NaN entries, NaN when every entry
is NaN. -/
def nanMean (l : List (Option ℚ)) : Option ℚ :=
  let v := l.filterMap id
  if v = [] then none else some (v.sum / v.length)

/-- A label or binary-prediction matrix is valid when all entries inside the
`R × C` window are 0 or 1 (the documented contract of the scoring functions). -/
def binaryValid (R C : ℕ) (M : ℕ → ℕ → ℚ) : Prop :=
  ∀ i < R, ∀ j < C, M i j = 0 ∨ M i j = 1

instance (R C : ℕ) (M : ℕ → ℕ → ℚ) : Decidable (binaryValid R C M) := by
  unfold binaryValid; infer_instance

/-! ## `_compute_accuracy` (cinc2021.py lines 1844–1869) -/

/-- `_compute_accuracy`: count the records whose predicted row equals the
true row (`np.all(labels[i, :] == outputs[i, :])`), divide by the number of
records. -/
def compute_accuracy (R C : ℕ) (L B : ℕ → ℕ → ℚ) : ℚ :=
  let num_correct_recordings :=
    (List.range R).foldl
      (fun acc i => if ∀ j < C, L i j = B i j then acc + 1 else acc) 0
  (num_correct_recordings : ℚ) / (R : ℚ)

/-! ## `_compute_confusion_matrices` (lines 1872–1933) -/

/-- The four cells of a per-class 2×2 confusion matrix. -/
inductive ConfCat
  | tp
  | fp
  | fn
  | tn
deriving DecidableEq

/-- One per-class confusion cell `A[k] = [[TN, FN], [FP, TP]]`. -/
structure CellQ where
  tn : ℚ
  fn : ℚ
  fp : ℚ
  tp : ℚ
deriving DecidableEq

/-- The `if/elif` chain classifying one `(label, output)` pair in
`_compute_confusion_matrices`; the final `else` branch is the `ValueError`. -/
def classifyPair (l o : ℚ) : Except String ConfCat :=
  if l = 1 ∧ o = 1 then .ok .tp
  else if l = 0 ∧ o = 1 then .ok .fp
  else if l = 1 ∧ o = 0 then .ok .fn
  else if l = 0 ∧ o = 0 then .ok .tn
  else .error "Error in computing the confusion matrix."

/-- Add weight `w` to the cell selected by `cat`. -/
def addCat (cell : CellQ) (w : ℚ) : ConfCat → CellQ
  | .tp => { cell with tp := cell.tp + w }
  | .fp => { cell with fp := cell.fp + w }
  | .fn => { cell with fn := cell.fn + w }
  | .tn => { cell with tn := cell.tn + w }

/-- The per-record increment: `1.0 / float(max(np.sum(labels[i, :]), 1))` in
normalized mode, `1` otherwise. -/
def recordWeight (normalize : Bool) (C : ℕ) (L : ℕ → ℕ → ℚ) (i : ℕ) : ℚ :=
  if normalize then 1 / max (∑ j ∈ Finset.range C, L i j) 1 else 1

/-- Accumulation of the 2×2 confusion cell of class `j` over all records,
faithful to the loop of `_compute_confusion_matrices`: an invalid
`(label, output)` pair raises the `ValueError`. -/
def cmCell (normalize : Bool) (R C : ℕ) (L B : ℕ → ℕ → ℚ) (j : ℕ) :
    Except String CellQ :=
  (List.range R).foldlM
    (fun cell i => do
      let cat ← classifyPair (L i j) (B i j)
      pure (addCat cell (recordWeight normalize C L i) cat))
    ⟨0, 0, 0, 0⟩

/-- `_compute_confusion_matrices`: one 2×2 cell per class; an invalid pair
anywhere in the `R × C` window raises the `ValueError`. -/
def compute_confusion_matrices (normalize : Bool) (R C : ℕ) (L B : ℕ → ℕ → ℚ) :
    Except String (List CellQ) :=
  (List.range C).mapM (cmCell normalize R C L B)

/-- The four defining conditions of the TP/FP/FN/TN cases, as stated in the
specification. -/
def catCond : ConfCat → ℚ → ℚ → Prop
  | .tp, l, o => l = 1 ∧ o = 1
  | .fp, l, o => l = 0 ∧ o = 1
  | .fn, l, o => l = 1 ∧ o = 0
  | .tn, l, o => l = 0 ∧ o = 0

/-- Closed form of one confusion cell on valid {0,1} input: each cell is the
guarded sum of the per-record weights. -/
def cmCellSums (normalize : Bool) (R C : ℕ) (L B : ℕ → ℕ → ℚ) (j : ℕ) : CellQ where
  tn := ∑ i ∈ Finset.range R,
    if L i j = 0 ∧ B i j = 0 then recordWeight normalize C L i else 0
  fn := ∑ i ∈ Finset.range R,
    if L i j = 1 ∧ B i j = 0 then recordWeight normalize C L i else 0
  fp := ∑ i ∈ Finset.range R,
    if L i j = 0 ∧ B i j = 1 then recordWeight normalize C L i else 0
  tp := ∑ i ∈ Finset.range R,
    if L i j = 1 ∧ B i j = 1 then recordWeight normalize C L i else 0

/-! ## `_compute_f_measure` (lines 1936–1973) and
`_compute_beta_measures` (lines 1976–2018) -/

/-- Per-class F1 from a confusion cell: `2·tp/(2·tp+fp+fn)`, NaN when the
denominator is zero (`if 2 * tp + fp + fn:` truthiness). -/
def f1Class (cell : CellQ) : Option ℚ :=
  if 2 * cell.tp + cell.fp + cell.fn ≠ 0 then
    some (2 * cell.tp / (2 * cell.tp + cell.fp + cell.fn))
  else none

/-- `_compute_f_measure`: the macro F1 (guarded by
`np.any(np.isfinite(f_measure))`) and the per-class vector. -/
def compute_f_measure (R C : ℕ) (L B : ℕ → ℕ → ℚ) :
    Except String (Option ℚ × List (Option ℚ)) := do
  let A ← compute_confusion_matrices false R C L B
  let f_measure := A.map f1Class
  let macro_f_measure :=
    if f_measure.any (·.isSome) then nanMean f_measure else none
  pure (macro_f_measure, f_measure)

/-- Per-class F-beta: `(1+β²)·tp / ((1+β²)·tp+fp+β²·fn)`, NaN on zero
denominator. -/
def fBetaClass (beta : ℚ) (cell : CellQ) : Option ℚ :=
  if (1 + beta ^ 2) * cell.tp + cell.fp + beta ^ 2 * cell.fn ≠ 0 then
    some ((1 + beta ^ 2) * cell.tp /
      ((1 + beta ^ 2) * cell.tp + cell.fp + beta ^ 2 * cell.fn))
  else none

/-- Per-class G-beta: `tp / (tp+fp+β·fn)`, NaN on zero denominator. -/
def gBetaClass (beta : ℚ) (cell : CellQ) : Option ℚ :=
  if cell.tp + cell.fp + beta * cell.fn ≠ 0 then
    some (cell.tp / (cell.tp + cell.fp + beta * cell.fn))
  else none

/-- `_compute_beta_measures`: confusion cells in normalized mode, macro
F-beta and G-beta via `np.nanmean` (NaN when every class is NaN). -/
def compute_beta_measures (R C : ℕ) (L B : ℕ → ℕ → ℚ) (beta : ℚ) :
    Except String (Option ℚ × Option ℚ) := do
  let A ← compute_confusion_matrices true R C L B
  pure (nanMean (A.map (fBetaClass beta)), nanMean (A.map (gBetaClass beta)))

/-! ## `_compute_modified_confusion_matrix` (lines 2128–2163) -/

/-- Truthiness of a numpy scalar: nonzero. -/
def truthy (x : ℚ) : Bool := x ≠ 0

/-- `np.sum(np.any((labels[i, :], outputs[i, :]), axis=0))`: the number of
classes `k < C` at which row `i` of `labels` or of `outputs` is nonzero. -/
def unionCount (C : ℕ) (L B : ℕ → ℕ → ℚ) (i : ℕ) : ℕ :=
  ((List.range C).filter (fun k => truthy (L i k) || truthy (B i k))).length

/-- `normalization = float(max(np.sum(np.any(...)), 1))`. -/
def mcmNormalization (C : ℕ) (L B : ℕ → ℕ → ℚ) (i : ℕ) : ℚ :=
  max (unionCount C L B i : ℚ) 1

/-- Entry `(j, k)` of the matrix built by
`_compute_modified_confusion_matrix`: the loop over records `i` adds
`1.0 / normalization` to `A[j, k]` whenever `labels[i, j]` and
`outputs[i, k]` are truthy.  Note the function never raises, whatever the
entries are. -/
def compute_modified_confusion_matrix (R C : ℕ) (L B : ℕ → ℕ → ℚ)
    (j k : ℕ) : ℚ :=
  (List.range R).foldl
    (fun acc i =>
      if truthy (L i j) then
        if truthy (B i k) then acc + 1 / mcmNormalization C L B i else acc
      else acc)
    0

/-! ## `compute_challenge_metric` (lines 2167–2223) -/

/-- `np.nansum(weights * A)`.  In the rational model no entry is NaN, so the
NaN-ignoring sum is the plain sum of the elementwise products. -/
def weightedSum (C : ℕ) (W A : ℕ → ℕ → ℚ) : ℚ :=
  ∑ j ∈ Finset.range C, ∑ k ∈ Finset.range C, W j k * A j k

/-- `compute_challenge_metric`: check the sinus-rhythm class is available,
score the observed predictions, the perfect model (`correct_outputs =
labels`) and the always-sinus-rhythm model, and normalize; the degenerate
`correct_score == inactive_score` case is a defined `0.0`. -/
def compute_challenge_metric (R C : ℕ) (W L B : ℕ → ℕ → ℚ)
    (classes : List String) (sinus_rhythm : String) : Except String ℚ :=
  if sinus_rhythm ∈ classes then
    let sinus_rhythm_index := classes.indexOf sinus_rhythm
    let observed_score :=
      weightedSum C W (compute_modified_confusion_matrix R C L B)
    let correct_score :=
      weightedSum C W (compute_modified_confusion_matrix R C L L)
    let inactive_outputs : ℕ → ℕ → ℚ :=
      fun _ k => if k = sinus_rhythm_index then 1 else 0
    let inactive_score :=
      weightedSum C W (compute_modified_confusion_matrix R C L inactive_outputs)
    if correct_score ≠ inactive_score then
      .ok ((observed_score - inactive_score) / (correct_score - inactive_score))
    else
      .ok 0
  else
    .error "The sinus rhythm class is not available."

/-! ## `_compute_auc` (lines 2021–2124) -/

/-- Running `(tp, fp, fn, tn)` state of the threshold sweep of
`_compute_auc`.  The Python counters live in float arrays, but with 0/1
labels they only ever hold integers; they are modelled in `ℤ`. -/
structure SweepCounts where
  tp : ℤ
  fp : ℤ
  fn : ℤ
  tn : ℤ
deriving DecidableEq

/-- One iteration of the inner `while` body: a truly positive record moves
FN → TP, a truly negative one moves TN → FP. -/
def absorbRecord (c : SweepCounts) (label : Bool) : SweepCounts :=
  if label then { c with tp := c.tp + 1, fn := c.fn - 1 }
  else { c with fp := c.fp + 1, tn := c.tn - 1 }

/-- The inner
`while i < num_recordings and outputs[idx[i], k] >= thresholds[j]` loop:
starting at the cursor, absorb records while their score is at least `t`. -/
def absorb (t : ℚ) : List (Bool × ℚ) → SweepCounts → List (Bool × ℚ) × SweepCounts
  | [], c => ([], c)
  | r :: rs, c =>
    if t ≤ r.2 then absorb t rs (absorbRecord c r.1) else (r :: rs, c)

/-- The outer `for j in range(1, num_thresholds)` loop: absorb at each
threshold in turn and record the counts. -/
def sweep : List ℚ → List (Bool × ℚ) → SweepCounts → List SweepCounts
  | [], _, _ => []
  | t :: ts, rs, c =>
    let p := absorb t rs c
    p.2 :: sweep ts p.1 p.2

/-- Descending order on records by score, the processing order produced by
`np.argsort(outputs[:, k])[::-1]`. -/
def scoreGE (a b : Bool × ℚ) : Prop := b.2 ≤ a.2

instance : DecidableRel scoreGE := fun a b =>
  inferInstanceAs (Decidable (b.2 ≤ a.2))

instance : IsTotal (Bool × ℚ) scoreGE := ⟨fun a b => le_total b.2 a.2⟩

instance : IsTrans (Bool × ℚ) scoreGE := ⟨fun _ _ _ h h' => le_trans h' h⟩

/-- `np.unique`: the distinct values, sorted ascending. -/
def npUnique (l : List ℚ) : List ℚ := List.insertionSort (· ≤ ·) l.dedup

/-- The threshold list of `_compute_auc` (lines 2053–2055): the distinct
scores with `max + 1` appended, then reversed, so the list descends from the
sentinel `max + 1`.  (On zero records the Python code raises an `IndexError`
at `thresholds[-1]`; the claims assume at least one record.) -/
def aucThresholds (scores : List ℚ) : List ℚ :=
  let u := npUnique scores
  match u.getLast? with
  | some m => (u ++ [m + 1]).reverse
  | none => []

/-- All per-threshold counts of one class (lines 2058–2086): the state
starts at `tp = fp = 0`, `fn = ` number of positive labels, `tn = ` number
of negative labels for the sentinel threshold, and is then swept over the
remaining thresholds with the records in descending-score order. -/
def countsList (recs : List (Bool × ℚ)) : List SweepCounts :=
  let c0 : SweepCounts :=
    ⟨0, 0, ((recs.filter (fun r => r.1)).length : ℤ),
      ((recs.filter (fun r => !r.1)).length : ℤ)⟩
  c0 :: sweep (aucThresholds (recs.map Prod.snd)).tail
    (List.insertionSort scoreGE recs) c0

/-- `tpr = tp / (tp + fn)`, NaN when the denominator is zero. -/
def tprOf (c : SweepCounts) : Option ℚ :=
  if (c.tp : ℚ) + (c.fn : ℚ) ≠ 0 then
    some ((c.tp : ℚ) / ((c.tp : ℚ) + (c.fn : ℚ)))
  else none

/-- `tnr = tn / (fp + tn)`, NaN when the denominator is zero. -/
def tnrOf (c : SweepCounts) : Option ℚ :=
  if (c.fp : ℚ) + (c.tn : ℚ) ≠ 0 then
    some ((c.tn : ℚ) / ((c.fp : ℚ) + (c.tn : ℚ)))
  else none

/-- `ppv = tp / (tp + fp)`, NaN when the denominator is zero. -/
def ppvOf (c : SweepCounts) : Option ℚ :=
  if (c.tp : ℚ) + (c.fp : ℚ) ≠ 0 then
    some ((c.tp : ℚ) / ((c.tp : ℚ) + (c.fp : ℚ)))
  else none

/-- One AUROC trapezoid term `0.5 * (tpr[j+1] - tpr[j]) * (tnr[j+1] + tnr[j])`. -/
def aurocTerm (c c' : SweepCounts) : Option ℚ :=
  qMul (some (1 / 2)) (qMul (qSub (tprOf c') (tprOf c)) (qAdd (tnrOf c') (tnrOf c)))

/-- One AUPRC step term `(tpr[j+1] - tpr[j]) * ppv[j+1]`. -/
def auprcTerm (c c' : SweepCounts) : Option ℚ :=
  qMul (qSub (tprOf c') (tprOf c)) (ppvOf c')

/-- AUROC of one class: the accumulator `auroc[k]` starts at `0.0` and adds
the trapezoid terms of consecutive threshold pairs; a NaN term poisons the
whole class value. -/
def aurocClass (recs : List (Bool × ℚ)) : Option ℚ :=
  let cs := countsList recs
  (List.zipWith aurocTerm cs cs.tail).foldl qAdd (some 0)

/-- AUPRC of one class, accumulated like `aurocClass`. -/
def auprcClass (recs : List (Bool × ℚ)) : Option ℚ :=
  let cs := countsList recs
  (List.zipWith auprcTerm cs cs.tail).foldl qAdd (some 0)

/-- One row of the `_compute_auc` input: the label row and the score row. -/
abbrev AucRow := (ℕ → Bool) × (ℕ → ℚ)

/-- Column `k` of the dataset: the `(label, score)` pair of every record. -/
def classColumn (rows : List AucRow) (k : ℕ) : List (Bool × ℚ) :=
  rows.map fun r => (r.1 k, r.2 k)

/-- `_compute_auc`: per-class AUROC/AUPRC vectors and macro values, the
macros guarded by `np.any(np.isfinite(...))` (NaN when every class is NaN). -/
def compute_auc (C : ℕ) (rows : List AucRow) :
    Option ℚ × Option ℚ × List (Option ℚ) × List (Option ℚ) :=
  let auroc := (List.range C).map fun k => aurocClass (classColumn rows k)
  let auprc := (List.range C).map fun k => auprcClass (classColumn rows k)
  let macro_auroc := if auroc.any (·.isSome) then nanMean auroc else none
  let macro_auprc := if auprc.any (·.isSome) then nanMean auprc else none
  (macro_auroc, macro_auprc, auroc, auprc)

/-! ## Declarative counts, from the words of the specification

The specification describes the sweep state declaratively: at a threshold
`t`, TP and FP hold the truly-positive resp. truly-negative records whose
score is at least `t`, and FN, TN hold the rest.  These definitions follow
the spec's words and are compared with the source-derived `countsList`. -/

/-- Modelled from the spec's words: the number of truly positive records
with score at least `t`. -/
def specTP (recs : List (Bool × ℚ)) (t : ℚ) : ℤ :=
  ((recs.filter fun r => r.1 && decide (t ≤ r.2)).length : ℤ)

/-- Modelled from the spec's words: the number of truly negative records
with score at least `t`. -/
def specFP (recs : List (Bool × ℚ)) (t : ℚ) : ℤ :=
  ((recs.filter fun r => !r.1 && decide (t ≤ r.2)).length : ℤ)

/-- The number of truly positive records. -/
def specPos (recs : List (Bool × ℚ)) : ℤ :=
  ((recs.filter fun r => r.1).length : ℤ)

/-- The number of truly negative records. -/
def specNeg (recs : List (Bool × ℚ)) : ℤ :=
  ((recs.filter fun r => !r.1).length : ℤ)

/-- Modelled from the spec's words: the sweep state at threshold `t` —
records with score `≥ t` have been absorbed (FN → TP, TN → FP), the others
have not. -/
def specCountsAt (recs : List (Bool × ℚ)) (t : ℚ) : SweepCounts :=
  ⟨specTP recs t, specFP recs t,
    specPos recs - specTP recs t, specNeg recs - specFP recs t⟩

/-! ## General lemmas on the accumulation loops -/

/-- A guarded accumulating for-loop is a guarded sum. -/
theorem foldl_guard_add (f : ℕ → ℚ) (p : ℕ → Prop) [DecidablePred p] (R : ℕ) (a : ℚ) :
    (List.range R).foldl (fun acc i => if p i then acc + f i else acc) a
      = a + ∑ i ∈ Finset.range R, if p i then f i else 0 := by
  induction R generalizing a with
  | zero => simp
  | succ n ih =>
    rw [List.range_succ, List.foldl_append, Finset.sum_range_succ]
    by_cases hp : p n <;> simp [hp, ih] <;> ring

/-- A doubly guarded accumulating for-loop is a conjunction-guarded sum. -/
theorem foldl_guard2_add (f : ℕ → ℚ) (p q : ℕ → Bool) (R : ℕ) (a : ℚ) :
    (List.range R).foldl
      (fun acc i => if p i then (if q i then acc + f i else acc) else acc) a
      = a + ∑ i ∈ Finset.range R, if p i ∧ q i then f i else 0 := by
  induction R generalizing a with
  | zero => simp
  | succ n ih =>
    rw [List.range_succ, List.foldl_append, Finset.sum_range_succ]
    by_cases hp : p n <;> by_cases hq : q n <;> simp [hp, hq, ih] <;> ring

/-- If every entry of a list is NaN, then its NaN-ignoring mean is NaN. -/
theorem nanMean_all_none {l : List (Option ℚ)} (h : ∀ x ∈ l, x = none) :
    nanMean l = none := by
  unfold nanMean
  rw [if_pos]
  exact List.filterMap_eq_nil_iff.mpr h

/-- The `np.any(np.isfinite(...))` guard of the source never changes the
value of the NaN-ignoring mean. -/
theorem guarded_nanMean (l : List (Option ℚ)) :
    (if l.any (·.isSome) then nanMean l else none) = nanMean l := by
  by_cases h : l.any (·.isSome)
  · rw [if_pos h]
  · rw [if_neg h]
    refine (nanMean_all_none fun x hx => ?_).symm
    rcases x with _ | v
    · rfl
    · exact absurd (List.any_eq_true.mpr ⟨some v, hx, rfl⟩) h

/-! ## Claim C1: the challenge-metric formula -/

/-- **C1.** For every weight matrix `W`, labels `L` and binary predictions
`B` with entries in {0, 1}, and class list containing the default
(sinus-rhythm) class, `compute_challenge_metric` returns
`(observed - baseline) / (perfect - baseline)`, where `observed`, `perfect`
and `baseline` are the (NaN-ignoring, here exact) sums of `W` elementwise
times the modified confusion matrices of `(L, B)`, `(L, L)` and `(L, D)`,
`D` predicting only the default class for every record; when
`perfect = baseline` it returns exactly `0`. -/
theorem challenge_metric_formula (R C : ℕ) (W L B : ℕ → ℕ → ℚ)
    (classes : List String) (sinus_rhythm : String)
    (hL : binaryValid R C L) (hB : binaryValid R C B)
    (hmem : sinus_rhythm ∈ classes) :
    compute_challenge_metric R C W L B classes sinus_rhythm =
      Except.ok
        (if weightedSum C W (compute_modified_confusion_matrix R C L L) ≠
            weightedSum C W (compute_modified_confusion_matrix R C L
              (fun _ k => if k = classes.indexOf sinus_rhythm then 1 else 0)) then
          (weightedSum C W (compute_modified_confusion_matrix R C L B) -
            weightedSum C W (compute_modified_confusion_matrix R C L
              (fun _ k => if k = classes.indexOf sinus_rhythm then 1 else 0))) /
          (weightedSum C W (compute_modified_confusion_matrix R C L L) -
            weightedSum C W (compute_modified_confusion_matrix R C L
              (fun _ k => if k = classes.indexOf sinus_rhythm then 1 else 0)))
        else 0) := by
  unfold compute_challenge_metric
  rw [if_pos hmem]
  dsimp only
  split_ifs with h <;> rfl

/-- Witness for C1 at a concrete input (perfect single-label predictions on
two records score 1). -/
theorem challenge_metric_formula_witness :
    compute_challenge_metric 2 2 (fun j k => if j = k then 1 else (1 : ℚ) / 2)
      (fun i j => if i = j then 1 else 0) (fun i j => if i = j then 1 else 0)
      ["N", "A"] "N" =
      Except.ok
        (if weightedSum 2 (fun j k => if j = k then 1 else (1 : ℚ) / 2)
            (compute_modified_confusion_matrix 2 2
              (fun i j => if i = j then 1 else 0) (fun i j => if i = j then 1 else 0)) ≠
            weightedSum 2 (fun j k => if j = k then 1 else (1 : ℚ) / 2)
              (compute_modified_confusion_matrix 2 2
                (fun i j => if i = j then 1 else 0)
                (fun _ k => if k = (["N", "A"].indexOf "N") then 1 else 0)) then
          (weightedSum 2 (fun j k => if j = k then 1 else (1 : ℚ) / 2)
            (compute_modified_confusion_matrix 2 2
              (fun i j => if i = j then 1 else 0) (fun i j => if i = j then 1 else 0)) -
            weightedSum 2 (fun j k => if j = k then 1 else (1 : ℚ) / 2)
              (compute_modified_confusion_matrix 2 2
                (fun i j => if i = j then 1 else 0)
                (fun _ k => if k = (["N", "A"].indexOf "N") then 1 else 0))) /
          (weightedSum 2 (fun j k => if j = k then 1 else (1 : ℚ) / 2)
            (compute_modified_confusion_matrix 2 2
              (fun i j => if i = j then 1 else 0) (fun i j => if i = j then 1 else 0)) -
            weightedSum 2 (fun j k => if j = k then 1 else (1 : ℚ) / 2)
              (compute_modified_confusion_matrix 2 2
                (fun i j => if i = j then 1 else 0)
                (fun _ k => if k = (["N", "A"].indexOf "N") then 1 else 0)))
        else 0) :=
  challenge_metric_formula 2 2 (fun j k => if j = k then 1 else (1 : ℚ) / 2)
    (fun i j => if i = j then 1 else 0) (fun i j => if i = j then 1 else 0)
    ["N", "A"] "N" (by decide) (by decide) (by decide)

/-! ## Claim C6: the sinus-rhythm membership check -/

/-- **C6.** `compute_challenge_metric` fails with the invalid-input error if
and only if the default (sinus-rhythm) class is not in the class list; the
check precedes all computation, so when the class is absent the result is
the fixed error value whatever `W`, `L`, `B` are, and when the class is
present the function never produces this error. -/
theorem challenge_metric_error_iff (R C : ℕ) (W L B : ℕ → ℕ → ℚ)
    (classes : List String) (sinus_rhythm : String) :
    ((∃ e, compute_challenge_metric R C W L B classes sinus_rhythm =
        Except.error e) ↔ sinus_rhythm ∉ classes) ∧
    (sinus_rhythm ∉ classes →
      compute_challenge_metric R C W L B classes sinus_rhythm =
        Except.error "The sinus rhythm class is not available.") := by
  unfold compute_challenge_metric
  by_cases h : sinus_rhythm ∈ classes
  · rw [if_pos h]
    refine ⟨⟨fun ⟨e, he⟩ => ?_, fun hno => absurd h hno⟩, fun hno => absurd h hno⟩
    dsimp only at he
    split at he <;> exact absurd he (by simp)
  · rw [if_neg h]
    exact ⟨⟨fun _ => h, fun _ => ⟨_, rfl⟩⟩, fun _ => rfl⟩

/-- Witness for C6: a concrete missing class yields the fixed error. -/
theorem challenge_metric_error_iff_witness :
    compute_challenge_metric 1 1 (fun _ _ => 1) (fun _ _ => 1) (fun _ _ => 1)
      ["A"] "B" = Except.error "The sinus rhythm class is not available." :=
  (challenge_metric_error_iff 1 1 (fun _ _ => 1) (fun _ _ => 1) (fun _ _ => 1)
    ["A"] "B").2 (by decide)

/-! ## Claim C3: the modified confusion matrix -/

/-- **C3.** With entries in {0, 1}, entry `(j, k)` of
`_compute_modified_confusion_matrix` is the sum over records with
`L[i,j] = 1` and `B[i,k] = 1` of `1 / norm_i`, where `norm_i` is the size of
the union of true-positive and predicted-positive classes of record `i`,
clamped below by 1; and the matrix need not be symmetric (rows index truth,
columns index prediction). -/
theorem modified_confusion_matrix_entry (R C : ℕ) (L B : ℕ → ℕ → ℚ)
    (hL : binaryValid R C L) (hB : binaryValid R C B)
    (j k : ℕ) (hj : j < C) (hk : k < C) :
    compute_modified_confusion_matrix R C L B j k =
      (∑ i ∈ Finset.range R,
        if L i j = 1 ∧ B i k = 1 then
          1 / max ((((List.range C).filter
              (fun c => decide (L i c = 1 ∨ B i c = 1))).length : ℚ)) 1
        else 0) ∧
    (∃ (R' C' : ℕ) (L' B' : ℕ → ℕ → ℚ) (j' k' : ℕ),
      binaryValid R' C' L' ∧ binaryValid R' C' B' ∧ j' < C' ∧ k' < C' ∧
      compute_modified_confusion_matrix R' C' L' B' j' k' ≠
        compute_modified_confusion_matrix R' C' L' B' k' j') := by
  constructor
  · unfold compute_modified_confusion_matrix
    rw [foldl_guard2_add (fun i => 1 / mcmNormalization C L B i)
      (fun i => truthy (L i j)) (fun i => truthy (B i k)) R 0, zero_add]
    refine Finset.sum_congr rfl fun i hi => ?_
    have hiR : i < R := Finset.mem_range.mp hi
    have htj : (truthy (L i j) = true) ↔ L i j = 1 := by
      rcases hL i hiR j hj with h0 | h0 <;> simp [truthy, h0]
    have htk : (truthy (B i k) = true) ↔ B i k = 1 := by
      rcases hB i hiR k hk with h0 | h0 <;> simp [truthy, h0]
    have hnorm : mcmNormalization C L B i =
        max ((((List.range C).filter
          (fun c => decide (L i c = 1 ∨ B i c = 1))).length : ℚ)) 1 := by
      unfold mcmNormalization unionCount
      have hfil : (List.range C).filter (fun c => truthy (L i c) || truthy (B i c)) =
          (List.range C).filter (fun c => decide (L i c = 1 ∨ B i c = 1)) := by
        refine List.filter_congr fun c hc => ?_
        have hcC : c < C := List.mem_range.mp hc
        rcases hL i hiR c hcC with h0 | h0 <;> rcases hB i hiR c hcC with g0 | g0 <;>
          simp [truthy, h0, g0]
      rw [hfil]
    rw [hnorm]
    exact if_congr (and_congr htj htk) rfl rfl
  · refine ⟨1, 2, fun i c => if i = 0 ∧ c = 0 then 1 else 0,
      fun i c => if i = 0 ∧ c = 1 then 1 else 0, 0, 1,
      by decide, by decide, by decide, by decide, ?_⟩
    have h01 : compute_modified_confusion_matrix 1 2
        (fun i c => if i = 0 ∧ c = 0 then (1 : ℚ) else 0)
        (fun i c => if i = 0 ∧ c = 1 then (1 : ℚ) else 0) 0 1 = 1 / 2 := by
      unfold compute_modified_confusion_matrix mcmNormalization unionCount truthy
      norm_num [List.range_succ, List.filter]
    have h10 : compute_modified_confusion_matrix 1 2
        (fun i c => if i = 0 ∧ c = 0 then (1 : ℚ) else 0)
        (fun i c => if i = 0 ∧ c = 1 then (1 : ℚ) else 0) 1 0 = 0 := by
      unfold compute_modified_confusion_matrix mcmNormalization unionCount truthy
      norm_num [List.range_succ, List.filter]
    rw [h01, h10]
    norm_num

/-- Witness for C3 at a concrete input. -/
theorem modified_confusion_matrix_entry_witness :
    compute_modified_confusion_matrix 1 2
      (fun i c => if i = 0 ∧ c = 0 then 1 else 0)
      (fun i c => if i = 0 ∧ c = 1 then 1 else 0) 0 1 =
      (∑ i ∈ Finset.range 1,
        if (fun i c => if i = 0 ∧ c = 0 then (1 : ℚ) else 0) i 0 = 1 ∧
            (fun i c => if i = 0 ∧ c = 1 then (1 : ℚ) else 0) i 1 = 1 then
          1 / max ((((List.range 2).filter
              (fun c => decide ((fun i c => if i = 0 ∧ c = 0 then (1 : ℚ) else 0) i c = 1 ∨
                (fun i c => if i = 0 ∧ c = 1 then (1 : ℚ) else 0) i c = 1))).length : ℚ)) 1
        else 0) :=
  (modified_confusion_matrix_entry 1 2
    (fun i c => if i = 0 ∧ c = 0 then 1 else 0)
    (fun i c => if i = 0 ∧ c = 1 then 1 else 0)
    (by decide) (by decide) 0 1 (by decide) (by decide)).1

/-! ## Lemmas on the confusion-matrix accumulation -/

/-- `classifyPair` either classifies the pair or raises the fixed
`ValueError` message. -/
theorem classifyPair_ok_or_error (l o : ℚ) :
    (∃ c, classifyPair l o = Except.ok c) ∨
      classifyPair l o = Except.error "Error in computing the confusion matrix." := by
  unfold classifyPair
  split_ifs <;> first | exact Or.inl ⟨_, rfl⟩ | exact Or.inr rfl

/-- A pair with a value outside {0, 1} falls through every branch and
raises. -/
theorem classifyPair_invalid {l o : ℚ}
    (h : ¬((l = 0 ∨ l = 1) ∧ (o = 0 ∨ o = 1))) :
    classifyPair l o = Except.error "Error in computing the confusion matrix." := by
  unfold classifyPair
  split_ifs with h1 h2 h3 h4 <;> [skip; skip; skip; skip; rfl] <;> exact absurd ⟨by tauto, by tauto⟩ h

/-- The confusion-cell fold evaluates to the guarded sums when every pair in
the processed record list is {0, 1}-valued. -/
theorem cmCell_eq_sums (normalize : Bool) (R C : ℕ) (L B : ℕ → ℕ → ℚ) (j : ℕ)
    (h : ∀ i < R, (L i j = 0 ∨ L i j = 1) ∧ (B i j = 0 ∨ B i j = 1)) :
    cmCell normalize R C L B j = Except.ok (cmCellSums normalize R C L B j) := by
  induction R with
  | zero =>
    simp only [cmCell, List.range_zero, List.foldlM_nil, cmCellSums,
      Finset.range_zero, Finset.sum_empty]
    rfl
  | succ n ih =>
    have hn : ∀ i < n, (L i j = 0 ∨ L i j = 1) ∧ (B i j = 0 ∨ B i j = 1) :=
      fun i hi => h i (Nat.lt_succ_of_lt hi)
    have hstep := ih hn
    unfold cmCell at hstep ⊢
    rw [List.range_succ, List.foldlM_append, hstep]
    obtain ⟨hL', hB'⟩ := h n (Nat.lt_succ_self n)
    rcases hL' with h0 | h0 <;> rcases hB' with g0 | g0 <;>
      simp [classifyPair, h0, g0, cmCellSums, addCat, Finset.sum_range_succ] <;>
      rfl

/-- The confusion-cell fold either succeeds or fails with the fixed
message. -/
theorem cmCell_ok_or_error (normalize : Bool) (R C : ℕ) (L B : ℕ → ℕ → ℚ) (j : ℕ) :
    (∃ cell, cmCell normalize R C L B j = Except.ok cell) ∨
      cmCell normalize R C L B j =
        Except.error "Error in computing the confusion matrix." := by
  unfold cmCell
  generalize (⟨0, 0, 0, 0⟩ : CellQ) = c0
  generalize List.range R = l
  induction l generalizing c0 with
  | nil => exact Or.inl ⟨c0, rfl⟩
  | cons a l ih =>
    rw [List.foldlM_cons]
    rcases classifyPair_ok_or_error (L a j) (B a j) with ⟨c, hc⟩ | hc <;> rw [hc]
    · exact ih _
    · exact Or.inr rfl

/-- An invalid pair anywhere in the processed records makes the
confusion-cell fold raise. -/
theorem cmCell_error (normalize : Bool) (R C : ℕ) (L B : ℕ → ℕ → ℚ) (j : ℕ)
    (h : ∃ i < R, ¬((L i j = 0 ∨ L i j = 1) ∧ (B i j = 0 ∨ B i j = 1))) :
    cmCell normalize R C L B j =
      Except.error "Error in computing the confusion matrix." := by
  unfold cmCell
  obtain ⟨i, hiR, hbad⟩ := h
  have hmem : i ∈ List.range R := List.mem_range.mpr hiR
  generalize (⟨0, 0, 0, 0⟩ : CellQ) = c0
  revert hmem
  generalize List.range R = l
  intro hmem
  induction l generalizing c0 with
  | nil => exact absurd hmem (List.not_mem_nil i)
  | cons a l ih =>
    rw [List.foldlM_cons]
    rcases List.mem_cons.mp hmem with rfl | hmem'
    · rw [classifyPair_invalid hbad]
      rfl
    · rcases classifyPair_ok_or_error (L a j) (B a j) with ⟨c, hc⟩ | hc <;> rw [hc]
      · exact ih _ hmem'
      · rfl

/-- `mapM` over `Except` succeeds when every element succeeds. -/
theorem mapM_ok_of_forall {f : ℕ → Except String CellQ} {g : ℕ → CellQ}
    (l : List ℕ) (h : ∀ j ∈ l, f j = Except.ok (g j)) :
    l.mapM f = Except.ok (l.map g) := by
  induction l with
  | nil => rfl
  | cons a l ih =>
    rw [List.mapM_cons, h a (List.mem_cons_self a l),
      ih fun j hj => h j (List.mem_cons_of_mem a hj)]
    rfl

/-- `mapM` over `Except` fails with the common message when some element
fails with it and every element either succeeds or fails with it. -/
theorem mapM_error {f : ℕ → Except String CellQ} {msg : String} (l : List ℕ)
    (hall : ∀ j, (∃ c, f j = Except.ok c) ∨ f j = Except.error msg)
    (h : ∃ j ∈ l, f j = Except.error msg) :
    l.mapM f = Except.error msg := by
  induction l with
  | nil => obtain ⟨j, hj, _⟩ := h; exact absurd hj (List.not_mem_nil j)
  | cons a l ih =>
    rw [List.mapM_cons]
    obtain ⟨j, hj, hje⟩ := h
    rcases List.mem_cons.mp hj with rfl | hj'
    · rw [hje]; rfl
    · rcases hall a with ⟨c, hc⟩ | hc <;> rw [hc]
      · rw [ih ⟨j, hj', hje⟩]; rfl
      · rfl

/-- On {0,1}-valid input the whole confusion-matrix computation succeeds
with the closed-form cells. -/
theorem compute_confusion_matrices_ok (normalize : Bool) (R C : ℕ)
    (L B : ℕ → ℕ → ℚ) (hL : binaryValid R C L) (hB : binaryValid R C B) :
    compute_confusion_matrices normalize R C L B =
      Except.ok ((List.range C).map (cmCellSums normalize R C L B)) := by
  unfold compute_confusion_matrices
  refine mapM_ok_of_forall _ fun j hj => ?_
  have hjC : j < C := List.mem_range.mp hj
  exact cmCell_eq_sums normalize R C L B j fun i hi => ⟨hL i hi j hjC, hB i hi j hjC⟩

/-- Any value outside {0,1} in the `R × C` window makes the whole
confusion-matrix computation raise the `ValueError`. -/
theorem compute_confusion_matrices_error (normalize : Bool) (R C : ℕ)
    (L B : ℕ → ℕ → ℚ)
    (h : ∃ i < R, ∃ j < C, ¬((L i j = 0 ∨ L i j = 1) ∧ (B i j = 0 ∨ B i j = 1))) :
    compute_confusion_matrices normalize R C L B =
      Except.error "Error in computing the confusion matrix." := by
  obtain ⟨i, hiR, j, hjC, hbad⟩ := h
  unfold compute_confusion_matrices
  exact mapM_error _ (fun k => cmCell_ok_or_error normalize R C L B k)
    ⟨j, List.mem_range.mpr hjC, cmCell_error normalize R C L B j ⟨i, hiR, hbad⟩⟩

/-! ## Claim C7: exhaustiveness of the confusion cases -/

/-- **C7 (amended).**  With all entries in {0, 1}, every `(label,
prediction)` pair satisfies exactly one of the TP/FP/FN/TN conditions and
the `ValueError` branch of `_compute_confusion_matrices` is unreachable;
conversely a value outside {0, 1} anywhere makes
`_compute_confusion_matrices` fail with that `ValueError`.  (The original
claim extended the converse to every consumer of the arrays; this is false
for `_compute_modified_confusion_matrix`, which treats any nonzero value as
positive and never raises — see the counterexample.) -/
theorem confusion_matrix_cases (normalize : Bool) (R C : ℕ) (L B : ℕ → ℕ → ℚ) :
    (binaryValid R C L → binaryValid R C B →
      (∀ i < R, ∀ j < C, ∃! cat : ConfCat, catCond cat (L i j) (B i j)) ∧
      ∃ A, compute_confusion_matrices normalize R C L B = Except.ok A) ∧
    ((∃ i < R, ∃ j < C,
        ¬((L i j = 0 ∨ L i j = 1) ∧ (B i j = 0 ∨ B i j = 1))) →
      compute_confusion_matrices normalize R C L B =
        Except.error "Error in computing the confusion matrix.") := by
  refine ⟨fun hL hB => ⟨fun i hi j hj => ?_, _,
    compute_confusion_matrices_ok normalize R C L B hL hB⟩,
    compute_confusion_matrices_error normalize R C L B⟩
  rcases hL i hi j hj with h0 | h0 <;> rcases hB i hi j hj with g0 | g0
  · exact ⟨.tn, by simp [catCond, h0, g0], fun y hy => by
      cases y <;> simp [catCond, h0, g0] at hy ⊢⟩
  · exact ⟨.fp, by simp [catCond, h0, g0], fun y hy => by
      cases y <;> simp [catCond, h0, g0] at hy ⊢⟩
  · exact ⟨.fn, by simp [catCond, h0, g0], fun y hy => by
      cases y <;> simp [catCond, h0, g0] at hy ⊢⟩
  · exact ⟨.tp, by simp [catCond, h0, g0], fun y hy => by
      cases y <;> simp [catCond, h0, g0] at hy ⊢⟩

/-- C7 counterexample: arrays whose entries are 2 (outside {0, 1}) are
consumed by `_compute_modified_confusion_matrix` — and by the whole
challenge-metric computation — without any error, refuting "for any
label/prediction array containing a value outside {0,1}, the computation
that consumes it fails with a fatal error". -/
theorem confusion_matrix_cases_cex :
    compute_modified_confusion_matrix 1 1 (fun _ _ => 2) (fun _ _ => 2) 0 0 = 1 ∧
    compute_challenge_metric 1 1 (fun _ _ => 1) (fun _ _ => 2) (fun _ _ => 2)
      ["N"] "N" = Except.ok 0 := by
  have hmcm : ∀ O : ℕ → ℕ → ℚ, O 0 0 ≠ 0 →
      compute_modified_confusion_matrix 1 1 (fun _ _ => 2) O 0 0 = 1 := by
    intro O hO
    unfold compute_modified_confusion_matrix mcmNormalization unionCount truthy
    simp [List.range_succ, List.filter, hO]
  refine ⟨hmcm (fun _ _ => 2) (by norm_num), ?_⟩
  unfold compute_challenge_metric
  rw [if_pos (by simp)]
  dsimp only
  have hws : ∀ A : ℕ → ℕ → ℚ, weightedSum 1 (fun _ _ => 1) A = A 0 0 := by
    intro A
    simp [weightedSum, Finset.sum_range_succ]
  have hidx : List.indexOf "N" ["N"] = 0 := by decide
  simp only [hws]
  rw [hmcm (fun _ _ => 2) (by norm_num),
    hmcm (fun _ k => if k = List.indexOf "N" ["N"] then 1 else 0)
      (by rw [hidx]; norm_num)]
  simp

/-- Witness for C7: a concrete out-of-range entry makes
`_compute_confusion_matrices` raise. -/
theorem confusion_matrix_cases_witness :
    compute_confusion_matrices false 1 1 (fun _ _ => 2) (fun _ _ => 2) =
      Except.error "Error in computing the confusion matrix." :=
  (confusion_matrix_cases false 1 1 (fun _ _ => 2) (fun _ _ => 2)).2
    ⟨0, by norm_num, 0, by norm_num, by norm_num⟩

/-! ## Claim C5: record-level accuracy and the concrete scenario

The concrete scenario of the specification is `classes = ["N", "A"]`,
`L = [[1,0],[0,1]]`, `B = [[1,0],[1,0]]`.  The two matrices are the lambdas
below (row `i`, column `j`). -/

/-- `(Except.ok x) >>= f` reduces. -/
theorem except_ok_bind {α β : Type} (x : α) (f : α → Except String β) :
    (Except.ok x >>= f) = f x := rfl

/-- The confusion matrices of the concrete scenario: class "N" has
TP=1, FP=1, FN=0, TN=0 and class "A" has TP=0, FP=0, FN=1, TN=1
(cells are `⟨tn, fn, fp, tp⟩`). -/
theorem scenario_confusion_matrices :
    compute_confusion_matrices false 2 2
      (fun i j => if (i = 0 ∧ j = 0) ∨ (i = 1 ∧ j = 1) then (1 : ℚ) else 0)
      (fun i j => if j = 0 then (1 : ℚ) else 0) =
      Except.ok [⟨0, 0, 1, 1⟩, ⟨1, 1, 0, 0⟩] := by
  rw [compute_confusion_matrices_ok false 2 2 _ _ (by decide) (by decide)]
  have h0 : cmCellSums false 2 2
      (fun i j => if (i = 0 ∧ j = 0) ∨ (i = 1 ∧ j = 1) then (1 : ℚ) else 0)
      (fun i j => if j = 0 then (1 : ℚ) else 0) 0 = ⟨0, 0, 1, 1⟩ := by
    simp [cmCellSums, recordWeight, Finset.sum_range_succ]
  have h1 : cmCellSums false 2 2
      (fun i j => if (i = 0 ∧ j = 0) ∨ (i = 1 ∧ j = 1) then (1 : ℚ) else 0)
      (fun i j => if j = 0 then (1 : ℚ) else 0) 1 = ⟨1, 1, 0, 0⟩ := by
    simp [cmCellSums, recordWeight, Finset.sum_range_succ]
  rw [show List.range 2 = [0, 1] by rfl]
  rw [List.map_cons, List.map_cons, List.map_nil, h0, h1]

/-- The F1 output of the concrete scenario: per-class `[2/3, 0]`, macro
`1/3`. -/
theorem scenario_f_measure :
    compute_f_measure 2 2
      (fun i j => if (i = 0 ∧ j = 0) ∨ (i = 1 ∧ j = 1) then (1 : ℚ) else 0)
      (fun i j => if j = 0 then (1 : ℚ) else 0) =
      Except.ok (some (1 / 3), [some (2 / 3), some 0]) := by
  unfold compute_f_measure
  rw [scenario_confusion_matrices, except_ok_bind]
  have hf0 : f1Class ⟨0, 0, 1, 1⟩ = some (2 / 3) := by
    unfold f1Class
    norm_num
  have hf1 : f1Class ⟨1, 1, 0, 0⟩ = some 0 := by
    unfold f1Class
    norm_num
  simp only [List.map_cons, List.map_nil, hf0, hf1]
  have hmean : nanMean [some ((2 : ℚ) / 3), some 0] = some (1 / 3) := by
    unfold nanMean
    rw [show ([some ((2 : ℚ) / 3), some 0].filterMap id) = [(2 : ℚ) / 3, 0] from rfl]
    rw [if_neg (by simp)]
    norm_num
  rw [hmean]
  rfl

/-- C5 counterexample: on the spec's concrete scenario the code returns
F1("N") = 2/3 (its confusion cell being TP=1, FP=1, FN=0, TN=0) and
F1("A") = 0 — not F1("N") = 1.0 and F1("A") = NaN as claimed. -/
theorem accuracy_scenario_cex :
    compute_f_measure 2 2
      (fun i j => if (i = 0 ∧ j = 0) ∨ (i = 1 ∧ j = 1) then (1 : ℚ) else 0)
      (fun i j => if j = 0 then (1 : ℚ) else 0) =
      Except.ok (some (1 / 3), [some (2 / 3), some 0]) ∧
    some ((2 : ℚ) / 3) ≠ some 1 ∧ some (0 : ℚ) ≠ none :=
  ⟨scenario_f_measure, by norm_num, by simp⟩

/-- **C5 (amended).**  `_compute_accuracy` returns the fraction of records
whose predicted row exactly equals the true row; on the concrete scenario
`classes = ["N","A"]`, `L = [[1,0],[0,1]]`, `B = [[1,0],[1,0]]` the class
"N" confusion is TP=1, FP=1, FN=0, TN=0 with F1 = 2/3, the class "A"
confusion is TP=0, FP=0, FN=1, TN=1 with F1 = 0.0, and the accuracy is
0.5. -/
theorem accuracy_exact_match :
    (∀ (R C : ℕ) (L B : ℕ → ℕ → ℚ),
      compute_accuracy R C L B =
        ((((Finset.range R).filter fun i => ∀ j < C, L i j = B i j).card : ℚ)) / R) ∧
    compute_confusion_matrices false 2 2
      (fun i j => if (i = 0 ∧ j = 0) ∨ (i = 1 ∧ j = 1) then (1 : ℚ) else 0)
      (fun i j => if j = 0 then (1 : ℚ) else 0) =
      Except.ok [⟨0, 0, 1, 1⟩, ⟨1, 1, 0, 0⟩] ∧
    compute_f_measure 2 2
      (fun i j => if (i = 0 ∧ j = 0) ∨ (i = 1 ∧ j = 1) then (1 : ℚ) else 0)
      (fun i j => if j = 0 then (1 : ℚ) else 0) =
      Except.ok (some (1 / 3), [some (2 / 3), some 0]) ∧
    compute_accuracy 2 2
      (fun i j => if (i = 0 ∧ j = 0) ∨ (i = 1 ∧ j = 1) then (1 : ℚ) else 0)
      (fun i j => if j = 0 then (1 : ℚ) else 0) = 1 / 2 := by
  have hacc : ∀ (R C : ℕ) (L B : ℕ → ℕ → ℚ),
      compute_accuracy R C L B =
        ((((Finset.range R).filter fun i => ∀ j < C, L i j = B i j).card : ℚ)) / R := by
    intro R C L B
    unfold compute_accuracy
    rw [foldl_guard_add (fun _ => (1 : ℚ)) (fun i => ∀ j < C, L i j = B i j) R 0,
      zero_add, Finset.sum_boole]
  refine ⟨hacc, scenario_confusion_matrices, scenario_f_measure, ?_⟩
  rw [hacc]
  have : ((Finset.range 2).filter fun i => ∀ j < 2,
      (fun i j => if (i = 0 ∧ j = 0) ∨ (i = 1 ∧ j = 1) then (1 : ℚ) else 0) i j =
        (fun i j => if j = 0 then (1 : ℚ) else 0) i j).card = 1 := by
    decide
  rw [this]
  norm_num

/-! ## Claim C4: macro metrics are NaN-ignoring means -/

/-- **C4.**  Each macro metric (AUROC, AUPRC, F1, F-beta, G-beta) equals the
NaN-ignoring mean of its per-class values; a class whose denominator is zero
contributes NaN; and a per-class vector that is entirely NaN yields a NaN
macro value (a value, not an error). -/
theorem macro_metrics_nan_mean (R C : ℕ) (L B : ℕ → ℕ → ℚ) (beta : ℚ)
    (hL : binaryValid R C L) (hB : binaryValid R C B)
    (Cs : ℕ) (rows : List AucRow) :
    compute_f_measure R C L B =
      Except.ok
        (nanMean ((List.range C).map fun j => f1Class (cmCellSums false R C L B j)),
          (List.range C).map fun j => f1Class (cmCellSums false R C L B j)) ∧
    compute_beta_measures R C L B beta =
      Except.ok
        (nanMean ((List.range C).map fun j => fBetaClass beta (cmCellSums true R C L B j)),
          nanMean ((List.range C).map fun j => gBetaClass beta (cmCellSums true R C L B j))) ∧
    (compute_auc Cs rows).1 =
      nanMean ((List.range Cs).map fun k => aurocClass (classColumn rows k)) ∧
    (compute_auc Cs rows).2.1 =
      nanMean ((List.range Cs).map fun k => auprcClass (classColumn rows k)) ∧
    (∀ j, f1Class (cmCellSums false R C L B j) = none ↔
      2 * (cmCellSums false R C L B j).tp + (cmCellSums false R C L B j).fp +
        (cmCellSums false R C L B j).fn = 0) ∧
    (∀ j, fBetaClass beta (cmCellSums true R C L B j) = none ↔
      (1 + beta ^ 2) * (cmCellSums true R C L B j).tp + (cmCellSums true R C L B j).fp +
        beta ^ 2 * (cmCellSums true R C L B j).fn = 0) ∧
    (∀ j, gBetaClass beta (cmCellSums true R C L B j) = none ↔
      (cmCellSums true R C L B j).tp + (cmCellSums true R C L B j).fp +
        beta * (cmCellSums true R C L B j).fn = 0) ∧
    (∀ l : List (Option ℚ), (∀ x ∈ l, x = none) → nanMean l = none) := by
  refine ⟨?_, ?_, ?_, ?_, ?_, ?_, ?_, fun l h => nanMean_all_none h⟩
  · unfold compute_f_measure
    rw [compute_confusion_matrices_ok false R C L B hL hB, except_ok_bind]
    dsimp only
    rw [List.map_map, guarded_nanMean]
    rfl
  · unfold compute_beta_measures
    rw [compute_confusion_matrices_ok true R C L B hL hB, except_ok_bind]
    rw [List.map_map, List.map_map]
    rfl
  · unfold compute_auc
    dsimp only
    rw [guarded_nanMean]
  · unfold compute_auc
    dsimp only
    rw [guarded_nanMean]
  · intro j
    unfold f1Class
    split_ifs with h
    · simp [h]
    · simp [not_not.mp h]
  · intro j
    unfold fBetaClass
    split_ifs with h
    · simp [h]
    · simp [not_not.mp h]
  · intro j
    unfold gBetaClass
    split_ifs with h
    · simp [h]
    · simp [not_not.mp h]

/-- Witness for C4: the F1 component at a concrete one-record input. -/
theorem macro_metrics_nan_mean_witness :
    compute_f_measure 1 1 (fun _ _ => 1) (fun _ _ => 1) =
      Except.ok
        (nanMean ((List.range 1).map fun j =>
          f1Class (cmCellSums false 1 1 (fun _ _ => 1) (fun _ _ => 1) j)),
          (List.range 1).map fun j =>
            f1Class (cmCellSums false 1 1 (fun _ _ => 1) (fun _ _ => 1) j)) :=
  (macro_metrics_nan_mean 1 1 (fun _ _ => 1) (fun _ _ => 1) 2
    (by decide) (by decide) 0 []).1

/-! ## The threshold sweep: from the cursor loop to declarative counts -/

/-- The cursor `while` loop takes the maximal prefix of records with score
at least `t` and absorbs it. -/
theorem absorb_eq (t : ℚ) (rs : List (Bool × ℚ)) (c : SweepCounts) :
    absorb t rs c =
      (rs.dropWhile (fun r => decide (t ≤ r.2)),
       (rs.takeWhile (fun r => decide (t ≤ r.2))).foldl
         (fun c r => absorbRecord c r.1) c) := by
  induction rs generalizing c with
  | nil => simp [absorb]
  | cons r rs ih =>
    by_cases h : t ≤ r.2
    · simp [absorb, h, List.takeWhile_cons, List.dropWhile_cons, ih]
    · simp [absorb, h, List.takeWhile_cons, List.dropWhile_cons]

/-- Absorbing a batch of records adds its positive count to TP (removing it
from FN) and its negative count to FP (removing it from TN). -/
theorem foldl_absorbRecord (l : List (Bool × ℚ)) (c : SweepCounts) :
    l.foldl (fun c r => absorbRecord c r.1) c =
      ⟨c.tp + ((l.filter fun r => r.1).length : ℤ),
       c.fp + ((l.filter fun r => !r.1).length : ℤ),
       c.fn - ((l.filter fun r => r.1).length : ℤ),
       c.tn - ((l.filter fun r => !r.1).length : ℤ)⟩ := by
  induction l generalizing c with
  | nil => simp
  | cons r l ih =>
    rw [List.foldl_cons, ih]
    cases hr : r.1 <;>
      simp [absorbRecord, hr, List.filter_cons, SweepCounts.mk.injEq] <;>
      push_cast <;>
      omega

/-- On a descending-sorted record list, the maximal `score ≥ t` prefix is
exactly the set of records with `score ≥ t`. -/
theorem takeWhile_eq_filter_of_sorted (t : ℚ) :
    ∀ rs : List (Bool × ℚ), List.Pairwise scoreGE rs →
      rs.takeWhile (fun r => decide (t ≤ r.2)) =
        rs.filter (fun r => decide (t ≤ r.2))
  | [], _ => rfl
  | r :: rs, h => by
    rw [List.pairwise_cons] at h
    by_cases hr : t ≤ r.2
    · rw [List.takeWhile_cons, List.filter_cons, if_pos (by simpa using hr)]
      simp only [decide_eq_true_eq.mpr hr]
      rw [takeWhile_eq_filter_of_sorted t rs h.2]
      simp [hr]
    · rw [List.takeWhile_cons, List.filter_cons, if_neg (by simpa using hr)]
      rw [if_neg (by simpa using hr)]
      refine (List.filter_eq_nil_iff.mpr fun x hx => ?_).symm
      have hxr : x.2 ≤ r.2 := h.1 x hx
      simp only [decide_eq_true_eq]
      intro ht
      exact hr (ht.trans hxr)

/-- On a descending-sorted record list, what remains after the cursor loop
is exactly the set of records with `score < t`. -/
theorem dropWhile_eq_filter_of_sorted (t : ℚ) :
    ∀ rs : List (Bool × ℚ), List.Pairwise scoreGE rs →
      rs.dropWhile (fun r => decide (t ≤ r.2)) =
        rs.filter (fun r => decide (r.2 < t))
  | [], _ => rfl
  | r :: rs, h => by
    rw [List.pairwise_cons] at h
    by_cases hr : t ≤ r.2
    · rw [List.dropWhile_cons, if_pos (by simpa using hr), List.filter_cons,
        if_neg (by simpa using not_lt.mpr hr)]
      exact dropWhile_eq_filter_of_sorted t rs h.2
    · have hlt : r.2 < t := not_le.mp hr
      rw [List.dropWhile_cons, if_neg (by simpa using hr), List.filter_cons,
        if_pos (by simpa using hlt)]
      congr 1
      refine (List.filter_eq_self.mpr fun x hx => ?_).symm
      have hxr : x.2 ≤ r.2 := h.1 x hx
      simpa using hxr.trans_lt hlt

/-- Splitting a `score ≥ t'` count at a larger threshold `t`:
the records with `score ≥ t'` are those with `score ≥ t` plus the band
`t' ≤ score < t`. -/
theorem length_filter_split (p : Bool × ℚ → Bool) {t' t : ℚ} (hle : t' ≤ t) :
    ∀ l : List (Bool × ℚ),
      (l.filter fun r => p r && decide (t' ≤ r.2)).length
        = (l.filter fun r => p r && decide (t ≤ r.2)).length
          + (l.filter fun r => p r && decide (t' ≤ r.2) && decide (r.2 < t)).length
  | [] => by simp
  | r :: l => by
    have ih := length_filter_split p hle l
    by_cases hp : p r
    · by_cases h2 : t ≤ r.2
      · have h1 : t' ≤ r.2 := hle.trans h2
        have h3 : ¬(r.2 < t) := not_lt.mpr h2
        simp [List.filter_cons, hp, decide_eq_true h1, decide_eq_true h2,
          decide_eq_false h3]
        omega
      · have h3 : r.2 < t := not_le.mp h2
        by_cases h1 : t' ≤ r.2
        · simp [List.filter_cons, hp, decide_eq_true h1,
            decide_eq_false h2, decide_eq_true h3]
          omega
        · simp [List.filter_cons, hp, decide_eq_false h1,
            decide_eq_false h2]
          omega
    · have hp' : p r = false := by simpa using hp
      simp [List.filter_cons, hp']
      omega

/-- Unfolding one step of the sweep. -/
theorem sweep_cons (t : ℚ) (ts : List ℚ) (rs : List (Bool × ℚ)) (c : SweepCounts) :
    sweep (t :: ts) rs c =
      (absorb t rs c).2 :: sweep ts (absorb t rs c).1 (absorb t rs c).2 := rfl

/-- The declarative counts are invariant under permutation of the
records. -/
theorem specCountsAt_perm {l l' : List (Bool × ℚ)} (h : l.Perm l') (t : ℚ) :
    specCountsAt l t = specCountsAt l' t := by
  unfold specCountsAt specTP specFP specPos specNeg
  rw [(h.filter (fun r => r.1 && decide (t ≤ r.2))).length_eq,
    (h.filter (fun r => !r.1 && decide (t ≤ r.2))).length_eq,
    (h.filter (fun r => r.1)).length_eq,
    (h.filter (fun r => !r.1)).length_eq]

/-- Core invariant of the sweep: if the records not yet absorbed are those
below the previous threshold and the running counts are the declarative
counts at that threshold, then sweeping a strictly descending threshold
list records the declarative counts at each threshold. -/
theorem sweep_eq_map_spec (l : List (Bool × ℚ)) (hs : List.Pairwise scoreGE l) :
    ∀ (ts : List ℚ) (tprev : ℚ), List.Chain (· > ·) tprev ts →
      sweep ts (l.filter fun r => decide (r.2 < tprev)) (specCountsAt l tprev)
        = ts.map (specCountsAt l) := by
  intro ts
  induction ts with
  | nil => intro tprev _; rfl
  | cons t ts ih =>
    intro tprev hchain
    rw [List.chain_cons] at hchain
    obtain ⟨hgt, hchain'⟩ := hchain
    have hgt' : t ≤ tprev := le_of_lt hgt
    have hsfil : List.Pairwise scoreGE (l.filter fun r => decide (r.2 < tprev)) :=
      hs.filter _
    rw [sweep_cons, absorb_eq,
      takeWhile_eq_filter_of_sorted t _ hsfil,
      dropWhile_eq_filter_of_sorted t _ hsfil]
    have hrem : ((l.filter fun r => decide (r.2 < tprev)).filter
        fun r => decide (r.2 < t)) = l.filter fun r => decide (r.2 < t) := by
      rw [List.filter_filter]
      refine List.filter_congr fun x _ => ?_
      by_cases hxt : x.2 < t
      · simp [hxt, hxt.trans hgt]
      · simp [hxt]
    have hb1 : (((l.filter fun r => decide (r.2 < tprev)).filter
          fun r => decide (t ≤ r.2)).filter fun r => r.1) =
        l.filter fun r => r.1 && decide (t ≤ r.2) && decide (r.2 < tprev) := by
      rw [List.filter_filter, List.filter_filter]
    have hb2 : (((l.filter fun r => decide (r.2 < tprev)).filter
          fun r => decide (t ≤ r.2)).filter fun r => !r.1) =
        l.filter fun r => !r.1 && decide (t ≤ r.2) && decide (r.2 < tprev) := by
      rw [List.filter_filter, List.filter_filter]
    have hsplit1 := length_filter_split (fun r => r.1) hgt' l
    have hsplit2 := length_filter_split (fun r => !r.1) hgt' l
    have hcounts : ((l.filter fun r => decide (r.2 < tprev)).filter
          fun r => decide (t ≤ r.2)).foldl (fun c r => absorbRecord c r.1)
          (specCountsAt l tprev) = specCountsAt l t := by
      rw [foldl_absorbRecord, hb1, hb2]
      unfold specCountsAt specTP specFP specPos specNeg
      simp only [SweepCounts.mk.injEq]
      refine ⟨?_, ?_, ?_, ?_⟩ <;> omega
    dsimp only
    rw [hrem, hcounts, List.map_cons, ih t hchain']

/-! ## Structure of the threshold list -/

/-- `npUnique` sorts ascending. -/
theorem npUnique_sorted (l : List ℚ) : List.Pairwise (· ≤ ·) (npUnique l) :=
  List.sorted_insertionSort _ _

/-- `npUnique` has no duplicates. -/
theorem npUnique_nodup (l : List ℚ) : (npUnique l).Nodup :=
  ((List.perm_insertionSort _ _).nodup_iff).mpr (List.nodup_dedup l)

/-- `npUnique` has the same members as its input. -/
theorem npUnique_mem (l : List ℚ) (x : ℚ) : x ∈ npUnique l ↔ x ∈ l := by
  unfold npUnique
  rw [List.mem_insertionSort, List.mem_dedup]

/-- Distinct sorted values ascend strictly. -/
theorem npUnique_pairwise_lt (l : List ℚ) :
    List.Pairwise (· < ·) (npUnique l) :=
  ((npUnique_sorted l).and (npUnique_nodup l)).imp
    fun h => lt_of_le_of_ne h.1 h.2

/-- A nonempty input yields a nonempty `npUnique`. -/
theorem npUnique_ne_nil {scores : List ℚ} (hne : scores ≠ []) :
    npUnique scores ≠ [] := by
  obtain ⟨x, hx⟩ := List.exists_mem_of_ne_nil scores hne
  exact List.ne_nil_of_mem ((npUnique_mem scores x).mpr hx)

/-- In an ascending-sorted list every member is at most the last element. -/
theorem pairwise_le_getLast :
    ∀ {u : List ℚ}, List.Pairwise (· ≤ ·) u →
      ∀ {x : ℚ}, x ∈ u → ∀ (h : u ≠ []), x ≤ u.getLast h
  | [], _, _, hx, h => absurd rfl h
  | a :: u, hs, x, hx, h => by
    rw [List.pairwise_cons] at hs
    rcases List.mem_cons.mp hx with rfl | hxu
    · cases u with
      | nil => simp
      | cons b u' =>
        rw [List.getLast_cons (by simp)]
        exact hs.1 _ (List.getLast_mem (by simp))
    · have hne : u ≠ [] := List.ne_nil_of_mem hxu
      rw [List.getLast_cons hne]
      exact pairwise_le_getLast hs.2 hxu hne

/-- In an ascending-sorted list the head is at most every member. -/
theorem pairwise_head_le {u : List ℚ} (hs : List.Pairwise (· ≤ ·) u)
    {x : ℚ} (hx : x ∈ u) (h : u ≠ []) : u.head h ≤ x := by
  cases u with
  | nil => exact absurd rfl h
  | cons a u =>
    rw [List.pairwise_cons] at hs
    rcases List.mem_cons.mp hx with rfl | hxu
    · exact le_refl _
    · exact hs.1 x hxu

/-- The threshold list is the sentinel `max + 1` followed by the distinct
scores in descending order. -/
theorem aucThresholds_eq {scores : List ℚ} (hne : scores ≠ []) :
    aucThresholds scores =
      ((npUnique scores).getLast (npUnique_ne_nil hne) + 1) ::
        (npUnique scores).reverse := by
  unfold aucThresholds
  dsimp only
  rw [List.getLast?_eq_getLast _ (npUnique_ne_nil hne)]
  simp [List.reverse_append]

/-- The threshold list descends strictly. -/
theorem aucThresholds_pairwise_gt {scores : List ℚ} (hne : scores ≠ []) :
    List.Pairwise (· > ·) (aucThresholds scores) := by
  rw [aucThresholds_eq hne, List.pairwise_cons]
  constructor
  · intro x hx
    rw [List.mem_reverse] at hx
    have hle : x ≤ (npUnique scores).getLast (npUnique_ne_nil hne) :=
      pairwise_le_getLast (npUnique_sorted scores) hx _
    linarith
  · exact List.pairwise_reverse.mpr (npUnique_pairwise_lt scores)

/-- **Refinement of the sweep.**  For a nonempty record list the counts
recorded by the source's cursor sweep are exactly the declarative counts at
each threshold of the threshold list. -/
theorem countsList_eq_spec (recs : List (Bool × ℚ)) (hne : recs ≠ []) :
    countsList recs =
      (aucThresholds (recs.map Prod.snd)).map (specCountsAt recs) := by
  have hsne : recs.map Prod.snd ≠ [] := by simpa using hne
  have hu := npUnique_ne_nil hsne
  have hthr := aucThresholds_eq hsne
  have hperm : (List.insertionSort scoreGE recs).Perm recs :=
    List.perm_insertionSort _ _
  have hsorted : List.Pairwise scoreGE (List.insertionSort scoreGE recs) :=
    List.sorted_insertionSort _ _
  have hscore_le : ∀ r ∈ recs,
      r.2 ≤ (npUnique (recs.map Prod.snd)).getLast hu := fun r hr =>
    pairwise_le_getLast (npUnique_sorted _)
      ((npUnique_mem _ r.2).mpr (List.mem_map_of_mem Prod.snd hr)) hu
  have hfun : specCountsAt (List.insertionSort scoreGE recs) = specCountsAt recs :=
    funext fun t => specCountsAt_perm hperm t
  have hchain : List.Chain (· > ·)
      ((npUnique (recs.map Prod.snd)).getLast hu + 1)
      (npUnique (recs.map Prod.snd)).reverse := by
    have hcc : List.Chain' (· > ·)
        (((npUnique (recs.map Prod.snd)).getLast hu + 1) ::
          (npUnique (recs.map Prod.snd)).reverse) :=
      List.chain'_iff_pairwise.mpr (hthr ▸ aucThresholds_pairwise_gt hsne)
    exact hcc
  have hall : (List.insertionSort scoreGE recs).filter
      (fun r => decide (r.2 < (npUnique (recs.map Prod.snd)).getLast hu + 1)) =
      List.insertionSort scoreGE recs :=
    List.filter_eq_self.mpr fun x hx => by
      have hxr : x ∈ recs := hperm.mem_iff.mp hx
      have := hscore_le x hxr
      simp only [decide_eq_true_eq]
      linarith
  have hmain := sweep_eq_map_spec (List.insertionSort scoreGE recs) hsorted
    (npUnique (recs.map Prod.snd)).reverse
    ((npUnique (recs.map Prod.snd)).getLast hu + 1) hchain
  rw [hall, hfun] at hmain
  have hc0 : (⟨0, 0, ((recs.filter fun r => r.1).length : ℤ),
      ((recs.filter fun r => !r.1).length : ℤ)⟩ : SweepCounts) =
      specCountsAt recs ((npUnique (recs.map Prod.snd)).getLast hu + 1) := by
    unfold specCountsAt specTP specFP specPos specNeg
    have h1 : (recs.filter fun r => r.1 && decide
        ((npUnique (recs.map Prod.snd)).getLast hu + 1 ≤ r.2)) = [] :=
      List.filter_eq_nil_iff.mpr fun x hx => by
        have := hscore_le x hx
        simp only [Bool.and_eq_true, decide_eq_true_eq, not_and]
        intro _ hle
        linarith
    have h2 : (recs.filter fun r => !r.1 && decide
        ((npUnique (recs.map Prod.snd)).getLast hu + 1 ≤ r.2)) = [] :=
      List.filter_eq_nil_iff.mpr fun x hx => by
        have := hscore_le x hx
        simp only [Bool.and_eq_true, decide_eq_true_eq, not_and]
        intro _ hle
        linarith
    rw [h1, h2]
    simp
  unfold countsList
  rw [hthr]
  dsimp only [List.tail_cons]
  rw [List.map_cons, hc0, hmain]

/-! ## Claim C2: the per-class threshold sweep -/

/-- **C2.**  For one class of a nonempty dataset: the thresholds are the
distinct score values sorted descending with one sentinel `max + 1`
prepended; the sweep starts at `tp = fp = 0`, `fn` = number of positives,
`tn` = number of negatives; at each threshold the counts are exactly those
of the records with score at least that threshold (positives absorbed
FN → TP, negatives TN → FP); and the returned AUROC/AUPRC are the
`0.5·(TPR↑)·(TNR+)` trapezoid sum resp. the `(TPR↑)·PPV` step sum over
consecutive threshold pairs of those counts, with `tprOf`/`tnrOf`/`ppvOf`
NaN on a zero denominator. -/
theorem auc_class_threshold_sweep (recs : List (Bool × ℚ)) (hne : recs ≠ []) :
    ∃ m : ℚ, (recs.map Prod.snd).maximum = (m : WithBot ℚ) ∧
      (∃ d, aucThresholds (recs.map Prod.snd) = (m + 1) :: d ∧
        List.Pairwise (· > ·) ((m + 1) :: d) ∧
        (∀ t, t ∈ d ↔ t ∈ recs.map Prod.snd)) ∧
      (countsList recs).head? = some ⟨0, 0, specPos recs, specNeg recs⟩ ∧
      countsList recs =
        (aucThresholds (recs.map Prod.snd)).map (specCountsAt recs) ∧
      aurocClass recs =
        (List.zipWith aurocTerm
          ((aucThresholds (recs.map Prod.snd)).map (specCountsAt recs))
          ((aucThresholds (recs.map Prod.snd)).map (specCountsAt recs)).tail).foldl
          qAdd (some 0) ∧
      auprcClass recs =
        (List.zipWith auprcTerm
          ((aucThresholds (recs.map Prod.snd)).map (specCountsAt recs))
          ((aucThresholds (recs.map Prod.snd)).map (specCountsAt recs)).tail).foldl
          qAdd (some 0) := by
  have hsne : recs.map Prod.snd ≠ [] := by simpa using hne
  have hu := npUnique_ne_nil hsne
  refine ⟨(npUnique (recs.map Prod.snd)).getLast hu, ?_, ?_, ?_,
    countsList_eq_spec recs hne, ?_, ?_⟩
  · rw [List.maximum_eq_coe_iff]
    exact ⟨(npUnique_mem _ _).mp (List.getLast_mem hu),
      fun a ha => pairwise_le_getLast (npUnique_sorted _)
        ((npUnique_mem _ a).mpr ha) hu⟩
  · exact ⟨(npUnique (recs.map Prod.snd)).reverse, aucThresholds_eq hsne,
      (aucThresholds_eq hsne) ▸ aucThresholds_pairwise_gt hsne,
      fun t => by rw [List.mem_reverse, npUnique_mem]⟩
  · rfl
  · unfold aurocClass
    rw [countsList_eq_spec recs hne]
  · unfold auprcClass
    rw [countsList_eq_spec recs hne]

/-- Witness for C2 at the one-record input `[(true, 1)]`. -/
theorem auc_class_threshold_sweep_witness :
    ∃ m : ℚ, (([((true : Bool), (1 : ℚ))]).map Prod.snd).maximum = (m : WithBot ℚ) ∧
      (∃ d, aucThresholds (([((true : Bool), (1 : ℚ))]).map Prod.snd) = (m + 1) :: d ∧
        List.Pairwise (· > ·) ((m + 1) :: d) ∧
        (∀ t, t ∈ d ↔ t ∈ ([((true : Bool), (1 : ℚ))]).map Prod.snd)) ∧
      (countsList [((true : Bool), (1 : ℚ))]).head? =
        some ⟨0, 0, specPos [((true : Bool), (1 : ℚ))], specNeg [((true : Bool), (1 : ℚ))]⟩ ∧
      countsList [((true : Bool), (1 : ℚ))] =
        (aucThresholds (([((true : Bool), (1 : ℚ))]).map Prod.snd)).map
          (specCountsAt [((true : Bool), (1 : ℚ))]) ∧
      aurocClass [((true : Bool), (1 : ℚ))] =
        (List.zipWith aurocTerm
          ((aucThresholds (([((true : Bool), (1 : ℚ))]).map Prod.snd)).map
            (specCountsAt [((true : Bool), (1 : ℚ))]))
          ((aucThresholds (([((true : Bool), (1 : ℚ))]).map Prod.snd)).map
            (specCountsAt [((true : Bool), (1 : ℚ))])).tail).foldl qAdd (some 0) ∧
      auprcClass [((true : Bool), (1 : ℚ))] =
        (List.zipWith auprcTerm
          ((aucThresholds (([((true : Bool), (1 : ℚ))]).map Prod.snd)).map
            (specCountsAt [((true : Bool), (1 : ℚ))]))
          ((aucThresholds (([((true : Bool), (1 : ℚ))]).map Prod.snd)).map
            (specCountsAt [((true : Bool), (1 : ℚ))])).tail).foldl qAdd (some 0) :=
  auc_class_threshold_sweep [((true : Bool), (1 : ℚ))] (by simp)

/-! ## Claim C10: invariants of the sweep -/

/-- Records are either positive or negative: the two filters partition. -/
theorem length_filter_bool (p : Bool × ℚ → Bool) :
    ∀ l : List (Bool × ℚ),
      (l.filter p).length + (l.filter fun r => !p r).length = l.length
  | [] => rfl
  | r :: l => by
    have ih := length_filter_bool p l
    cases hr : p r <;> simp [List.filter_cons, hr] <;> omega

/-- Positives plus negatives is the number of records. -/
theorem specPos_add_specNeg (recs : List (Bool × ℚ)) :
    specPos recs + specNeg recs = (recs.length : ℤ) := by
  unfold specPos specNeg
  have := length_filter_bool (fun r => r.1) recs
  omega

/-- Lowering the threshold can only increase the positive count. -/
theorem specTP_anti (recs : List (Bool × ℚ)) {t t' : ℚ} (h : t' ≤ t) :
    specTP recs t ≤ specTP recs t' := by
  unfold specTP
  have hsub : (recs.filter fun r => r.1 && decide (t ≤ r.2)).Sublist
      (recs.filter fun r => r.1 && decide (t' ≤ r.2)) :=
    List.monotone_filter_right _ fun a ha => by
      simp only [Bool.and_eq_true, decide_eq_true_eq] at *
      exact ⟨ha.1, h.trans ha.2⟩
  exact_mod_cast hsub.length_le

/-- Lowering the threshold can only increase the negative count. -/
theorem specFP_anti (recs : List (Bool × ℚ)) {t t' : ℚ} (h : t' ≤ t) :
    specFP recs t ≤ specFP recs t' := by
  unfold specFP
  have hsub : (recs.filter fun r => !r.1 && decide (t ≤ r.2)).Sublist
      (recs.filter fun r => !r.1 && decide (t' ≤ r.2)) :=
    List.monotone_filter_right _ fun a ha => by
      simp only [Bool.and_eq_true, decide_eq_true_eq] at *
      exact ⟨ha.1, h.trans ha.2⟩
  exact_mod_cast hsub.length_le

/-- At the minimum score every record has been absorbed. -/
theorem specCountsAt_head_min (recs : List (Bool × ℚ)) (hne : recs ≠ [])
    (hsne : recs.map Prod.snd ≠ []) (hu : npUnique (recs.map Prod.snd) ≠ []) :
    specCountsAt recs ((npUnique (recs.map Prod.snd)).head hu) =
      ⟨specPos recs, specNeg recs, 0, 0⟩ := by
  have hmin : ∀ r ∈ recs, (npUnique (recs.map Prod.snd)).head hu ≤ r.2 :=
    fun r hr => pairwise_head_le (npUnique_sorted _)
      ((npUnique_mem _ _).mpr (List.mem_map_of_mem Prod.snd hr)) hu
  unfold specCountsAt specTP specFP
  have e1 : (recs.filter fun r =>
      r.1 && decide ((npUnique (recs.map Prod.snd)).head hu ≤ r.2)) =
      recs.filter fun r => r.1 :=
    List.filter_congr fun x hx => by
      simp [decide_eq_true (hmin x hx)]
  have e2 : (recs.filter fun r =>
      !r.1 && decide ((npUnique (recs.map Prod.snd)).head hu ≤ r.2)) =
      recs.filter fun r => !r.1 :=
    List.filter_congr fun x hx => by
      simp [decide_eq_true (hmin x hx)]
  rw [e1, e2]
  unfold specPos specNeg
  simp

/-- **C10.**  For {0,1} labels (here `Bool`): at every threshold the four
counts sum to the number of records; `tp` and `fp` are nondecreasing while
`fn` and `tn` are nonincreasing along the sweep; and at the final (minimum)
threshold `fn = tn = 0` with `tp + fp` equal to the number of records — the
cursor has moved every record out of the (FN, TN) state exactly once. -/
theorem auc_sweep_invariants (recs : List (Bool × ℚ)) (hne : recs ≠ []) :
    (∀ c ∈ countsList recs, c.tp + c.fp + c.fn + c.tn = (recs.length : ℤ)) ∧
    List.Chain' (fun a b : SweepCounts =>
      a.tp ≤ b.tp ∧ a.fp ≤ b.fp ∧ b.fn ≤ a.fn ∧ b.tn ≤ a.tn) (countsList recs) ∧
    (∃ clast, (countsList recs).getLast? = some clast ∧
      clast.fn = 0 ∧ clast.tn = 0 ∧ clast.tp + clast.fp = (recs.length : ℤ)) := by
  have hsne : recs.map Prod.snd ≠ [] := by simpa using hne
  have hu := npUnique_ne_nil hsne
  have hsum := specPos_add_specNeg recs
  refine ⟨?_, ?_, ?_⟩
  · rw [countsList_eq_spec recs hne]
    intro c hc
    obtain ⟨t, _, rfl⟩ := List.mem_map.mp hc
    show specTP recs t + specFP recs t + (specPos recs - specTP recs t) +
      (specNeg recs - specFP recs t) = (recs.length : ℤ)
    omega
  · rw [countsList_eq_spec recs hne, List.chain'_map]
    have hthr_chain : List.Chain' (· > ·) (aucThresholds (recs.map Prod.snd)) :=
      List.chain'_iff_pairwise.mpr (aucThresholds_pairwise_gt hsne)
    refine hthr_chain.imp fun a b hab => ?_
    have h1 := specTP_anti recs (le_of_lt hab)
    have h2 := specFP_anti recs (le_of_lt hab)
    refine ⟨h1, h2, ?_, ?_⟩
    · show specPos recs - specTP recs b ≤ specPos recs - specTP recs a
      omega
    · show specNeg recs - specFP recs b ≤ specNeg recs - specFP recs a
      omega
  · have hrevne : (npUnique (recs.map Prod.snd)).reverse ≠ [] := by
      simpa using hu
    have hlast : (aucThresholds (recs.map Prod.snd)).getLast? =
        some ((npUnique (recs.map Prod.snd)).head hu) := by
      rw [aucThresholds_eq hsne, List.getLast?_eq_getLast _ (by simp),
        List.getLast_cons hrevne]
      have h1 := List.getLast?_reverse (npUnique (recs.map Prod.snd))
      rw [List.getLast?_eq_getLast _ hrevne, List.head?_eq_head hu] at h1
      rw [h1]
    refine ⟨specCountsAt recs ((npUnique (recs.map Prod.snd)).head hu), ?_, ?_, ?_, ?_⟩
    · rw [countsList_eq_spec recs hne, List.getLast?_map, hlast]
      rfl
    · rw [specCountsAt_head_min recs hne hsne hu]
    · rw [specCountsAt_head_min recs hne hsne hu]
    · rw [specCountsAt_head_min recs hne hsne hu]
      exact hsum

/-- Witness for C10 at the one-record input `[(true, 1)]`. -/
theorem auc_sweep_invariants_witness :
    (∀ c ∈ countsList [((true : Bool), (1 : ℚ))],
      c.tp + c.fp + c.fn + c.tn = (([((true : Bool), (1 : ℚ))] : List (Bool × ℚ)).length : ℤ)) ∧
    List.Chain' (fun a b : SweepCounts =>
      a.tp ≤ b.tp ∧ a.fp ≤ b.fp ∧ b.fn ≤ a.fn ∧ b.tn ≤ a.tn)
      (countsList [((true : Bool), (1 : ℚ))]) ∧
    (∃ clast, (countsList [((true : Bool), (1 : ℚ))]).getLast? = some clast ∧
      clast.fn = 0 ∧ clast.tn = 0 ∧
      clast.tp + clast.fp = (([((true : Bool), (1 : ℚ))] : List (Bool × ℚ)).length : ℤ)) :=
  auc_sweep_invariants [((true : Bool), (1 : ℚ))] (by simp)

/-! ## Claim C8: permutation invariance -/

/-- `npUnique` is determined by the multiset of values. -/
theorem npUnique_perm_eq {l l' : List ℚ} (h : l.Perm l') :
    npUnique l = npUnique l' :=
  List.eq_of_perm_of_sorted
    (((List.perm_insertionSort _ _).trans h.dedup).trans
      (List.perm_insertionSort _ _).symm)
    (npUnique_sorted l) (npUnique_sorted l')

/-- The threshold list is determined by the multiset of scores. -/
theorem aucThresholds_perm_eq {l l' : List ℚ} (h : l.Perm l') :
    aucThresholds l = aucThresholds l' := by
  unfold aucThresholds
  rw [npUnique_perm_eq h]

/-- Per-class AUROC is invariant under permutation of the records. -/
theorem aurocClass_perm {recs recs' : List (Bool × ℚ)} (h : recs.Perm recs') :
    aurocClass recs = aurocClass recs' := by
  rcases eq_or_ne recs [] with rfl | hne
  · rw [h.symm.eq_nil]
  · have hne' : recs' ≠ [] := fun he => hne (by rw [he] at h; exact h.eq_nil)
    unfold aurocClass
    dsimp only
    rw [countsList_eq_spec recs hne, countsList_eq_spec recs' hne',
      aucThresholds_perm_eq (h.map Prod.snd),
      funext (specCountsAt_perm h)]

/-- Per-class AUPRC is invariant under permutation of the records. -/
theorem auprcClass_perm {recs recs' : List (Bool × ℚ)} (h : recs.Perm recs') :
    auprcClass recs = auprcClass recs' := by
  rcases eq_or_ne recs [] with rfl | hne
  · rw [h.symm.eq_nil]
  · have hne' : recs' ≠ [] := fun he => hne (by rw [he] at h; exact h.eq_nil)
    unfold auprcClass
    dsimp only
    rw [countsList_eq_spec recs hne, countsList_eq_spec recs' hne',
      aucThresholds_perm_eq (h.map Prod.snd),
      funext (specCountsAt_perm h)]

/-- **C8.**  Applying one permutation simultaneously to the rows of the
labels and scores leaves each class's AUROC and AUPRC — and hence the macro
values and the whole `_compute_auc` output — unchanged. -/
theorem auc_permutation_invariant (C : ℕ) (rows rows' : List AucRow)
    (h : rows.Perm rows') :
    (∀ k, aurocClass (classColumn rows k) = aurocClass (classColumn rows' k)) ∧
    (∀ k, auprcClass (classColumn rows k) = auprcClass (classColumn rows' k)) ∧
    compute_auc C rows = compute_auc C rows' := by
  have hcol : ∀ k, (classColumn rows k).Perm (classColumn rows' k) :=
    fun k => h.map _
  refine ⟨fun k => aurocClass_perm (hcol k),
    fun k => auprcClass_perm (hcol k), ?_⟩
  unfold compute_auc
  rw [List.map_congr_left fun k _ => aurocClass_perm (hcol k),
    List.map_congr_left fun k _ => auprcClass_perm (hcol k)]

/-- Witness for C8: swapping two concrete records leaves the result
unchanged. -/
theorem auc_permutation_invariant_witness :
    compute_auc 1 [((fun _ => true), (fun _ => (1 : ℚ))),
        ((fun _ => false), (fun _ => (0 : ℚ)))] =
      compute_auc 1 [((fun _ => false), (fun _ => (0 : ℚ))),
        ((fun _ => true), (fun _ => (1 : ℚ)))] :=
  (auc_permutation_invariant 1 _ _
    (List.Perm.swap _ _ [])).2.2

/-! ## Claim C9: the perfect classifier -/

/-- A score list whose members are exactly {0, 1} has `npUnique = [0, 1]`. -/
theorem npUnique_eq_pair {scores : List ℚ} (h0 : (0 : ℚ) ∈ scores)
    (h1 : (1 : ℚ) ∈ scores) (hall : ∀ x ∈ scores, x = 0 ∨ x = 1) :
    npUnique scores = [0, 1] := by
  refine List.eq_of_perm_of_sorted ?_ (npUnique_sorted scores) ?_
  · refine List.perm_of_nodup_nodup_toFinset_eq (npUnique_nodup scores)
      (by norm_num) ?_
    ext x
    simp only [List.mem_toFinset, npUnique_mem, List.mem_cons,
      List.mem_singleton, List.not_mem_nil, or_false]
    exact ⟨fun hx => hall x hx, fun hx => by rcases hx with rfl | rfl <;> assumption⟩
  · refine List.pairwise_cons.mpr ⟨?_, List.pairwise_cons.mpr ⟨?_, List.Pairwise.nil⟩⟩
    · intro b hb
      rcases List.mem_singleton.mp hb with rfl
      norm_num
    · intro b hb
      exact absurd hb (List.not_mem_nil b)

/-- A constant score list has a singleton `npUnique`. -/
theorem npUnique_eq_single {scores : List ℚ} {a : ℚ} (hmem : a ∈ scores)
    (hall : ∀ x ∈ scores, x = a) : npUnique scores = [a] := by
  refine List.eq_of_perm_of_sorted ?_ (npUnique_sorted scores) ?_
  · refine List.perm_of_nodup_nodup_toFinset_eq (npUnique_nodup scores)
      (by simp) ?_
    ext x
    simp only [List.mem_toFinset, npUnique_mem, List.mem_singleton]
    exact ⟨fun hx => hall x hx, fun hx => hx ▸ hmem⟩
  · exact List.sorted_singleton a

/-- The declarative counts of the perfect scorer (`score = 1` on positives,
`0` on negatives) at the three possible thresholds. -/
theorem perfect_counts (recs : List (Bool × ℚ))
    (hsc : ∀ r ∈ recs, r.2 = if r.1 then 1 else 0) :
    specCountsAt recs 2 = ⟨0, 0, specPos recs, specNeg recs⟩ ∧
    specCountsAt recs 1 = ⟨specPos recs, 0, 0, specNeg recs⟩ ∧
    specCountsAt recs 0 = ⟨specPos recs, specNeg recs, 0, 0⟩ := by
  have h2p : (recs.filter fun r => r.1 && decide ((2 : ℚ) ≤ r.2)) = [] :=
    List.filter_eq_nil_iff.mpr fun x hx => by
      cases hx1 : x.1 <;> simp [hx1, hsc x hx] <;> norm_num
  have h2n : (recs.filter fun r => !r.1 && decide ((2 : ℚ) ≤ r.2)) = [] :=
    List.filter_eq_nil_iff.mpr fun x hx => by
      cases hx1 : x.1 <;> simp [hx1, hsc x hx] <;> norm_num
  have h1p : (recs.filter fun r => r.1 && decide ((1 : ℚ) ≤ r.2)) =
      recs.filter fun r => r.1 :=
    List.filter_congr fun x hx => by
      cases hx1 : x.1 <;> simp [hx1, hsc x hx]
  have h1n : (recs.filter fun r => !r.1 && decide ((1 : ℚ) ≤ r.2)) = [] :=
    List.filter_eq_nil_iff.mpr fun x hx => by
      cases hx1 : x.1 <;> simp [hx1, hsc x hx] <;> norm_num
  have h0p : (recs.filter fun r => r.1 && decide ((0 : ℚ) ≤ r.2)) =
      recs.filter fun r => r.1 :=
    List.filter_congr fun x hx => by
      cases hx1 : x.1 <;> simp [hx1, hsc x hx]
  have h0n : (recs.filter fun r => !r.1 && decide ((0 : ℚ) ≤ r.2)) =
      recs.filter fun r => !r.1 :=
    List.filter_congr fun x hx => by
      cases hx1 : x.1 <;> simp [hx1, hsc x hx]
  unfold specCountsAt specTP specFP
  rw [h2p, h2n, h1p, h1n, h0p, h0n]
  unfold specPos specNeg
  refine ⟨?_, ?_, ?_⟩ <;>
    simp only [List.length_nil, Nat.cast_zero, sub_zero, sub_self]

/-- Evaluation of the AUROC accumulation for a class with positives and
negatives, perfectly scored. -/
theorem auroc_fold_both {P N : ℤ} (hP : 0 < P) (hN : 0 < N) :
    (List.zipWith aurocTerm
      [(⟨0, 0, P, N⟩ : SweepCounts), ⟨P, 0, 0, N⟩, ⟨P, N, 0, 0⟩]
      [(⟨0, 0, P, N⟩ : SweepCounts), ⟨P, 0, 0, N⟩, ⟨P, N, 0, 0⟩].tail).foldl
      qAdd (some 0) = some 1 := by
  have hP' : ((P : ℚ)) ≠ 0 := ne_of_gt (by exact_mod_cast hP)
  have hN' : ((N : ℚ)) ≠ 0 := ne_of_gt (by exact_mod_cast hN)
  have hPN : ((P : ℚ)) + (N : ℚ) ≠ 0 :=
    ne_of_gt (by positivity)
  norm_num [aurocTerm, tprOf, tnrOf, ppvOf, qAdd, qSub, qMul,
    hP', hN', hPN, div_self]

/-- Evaluation of the AUPRC accumulation for a class with positives and
negatives, perfectly scored. -/
theorem auprc_fold_both {P N : ℤ} (hP : 0 < P) (hN : 0 < N) :
    (List.zipWith auprcTerm
      [(⟨0, 0, P, N⟩ : SweepCounts), ⟨P, 0, 0, N⟩, ⟨P, N, 0, 0⟩]
      [(⟨0, 0, P, N⟩ : SweepCounts), ⟨P, 0, 0, N⟩, ⟨P, N, 0, 0⟩].tail).foldl
      qAdd (some 0) = some 1 := by
  have hP' : ((P : ℚ)) ≠ 0 := ne_of_gt (by exact_mod_cast hP)
  have hN' : ((N : ℚ)) ≠ 0 := ne_of_gt (by exact_mod_cast hN)
  have hPN : ((P : ℚ)) + (N : ℚ) ≠ 0 :=
    ne_of_gt (by positivity)
  norm_num [auprcTerm, tprOf, ppvOf, qAdd, qSub, qMul,
    hP', hN', hPN, div_self]

/-- For an all-positive class the AUROC accumulation is NaN (TNR has a zero
denominator at every threshold). -/
theorem auroc_fold_allpos {P : ℤ} (hP : 0 < P) :
    (List.zipWith aurocTerm
      [(⟨0, 0, P, 0⟩ : SweepCounts), ⟨P, 0, 0, 0⟩]
      [(⟨0, 0, P, 0⟩ : SweepCounts), ⟨P, 0, 0, 0⟩].tail).foldl
      qAdd (some 0) = none := by
  have hP' : ((P : ℚ)) ≠ 0 := ne_of_gt (by exact_mod_cast hP)
  norm_num [aurocTerm, tprOf, tnrOf, qAdd, qSub, qMul, hP']

/-- For an all-positive class the AUPRC accumulation is 1. -/
theorem auprc_fold_allpos {P : ℤ} (hP : 0 < P) :
    (List.zipWith auprcTerm
      [(⟨0, 0, P, 0⟩ : SweepCounts), ⟨P, 0, 0, 0⟩]
      [(⟨0, 0, P, 0⟩ : SweepCounts), ⟨P, 0, 0, 0⟩].tail).foldl
      qAdd (some 0) = some 1 := by
  have hP' : ((P : ℚ)) ≠ 0 := ne_of_gt (by exact_mod_cast hP)
  norm_num [auprcTerm, tprOf, ppvOf, qAdd, qSub, qMul, hP', div_self]

/-- For a class with no positive records the AUROC accumulation is NaN. -/
theorem auroc_fold_allneg {N : ℤ} :
    (List.zipWith aurocTerm
      [(⟨0, 0, 0, N⟩ : SweepCounts), ⟨0, N, 0, 0⟩]
      [(⟨0, 0, 0, N⟩ : SweepCounts), ⟨0, N, 0, 0⟩].tail).foldl
      qAdd (some 0) = none := by
  norm_num [aurocTerm, tprOf, tnrOf, qAdd, qSub, qMul]

/-- For a class with no positive records the AUPRC accumulation is NaN. -/
theorem auprc_fold_allneg {N : ℤ} :
    (List.zipWith auprcTerm
      [(⟨0, 0, 0, N⟩ : SweepCounts), ⟨0, N, 0, 0⟩]
      [(⟨0, 0, 0, N⟩ : SweepCounts), ⟨0, N, 0, 0⟩].tail).foldl
      qAdd (some 0) = none := by
  norm_num [auprcTerm, tprOf, ppvOf, qAdd, qSub, qMul]

/-- Scenario with positives and negatives: AUROC and AUPRC are both 1. -/
theorem perfect_both (recs : List (Bool × ℚ)) (hne : recs ≠ [])
    (hsc : ∀ r ∈ recs, r.2 = if r.1 then 1 else 0)
    (hpos : ∃ r ∈ recs, r.1 = true) (hneg : ∃ r ∈ recs, r.1 = false) :
    aurocClass recs = some 1 ∧ auprcClass recs = some 1 := by
  obtain ⟨rp, hrp, hrp1⟩ := hpos
  obtain ⟨rn, hrn, hrn1⟩ := hneg
  have h1mem : (1 : ℚ) ∈ recs.map Prod.snd :=
    List.mem_map.mpr ⟨rp, hrp, by rw [hsc rp hrp, hrp1]; simp⟩
  have h0mem : (0 : ℚ) ∈ recs.map Prod.snd :=
    List.mem_map.mpr ⟨rn, hrn, by rw [hsc rn hrn, hrn1]; simp⟩
  have hall : ∀ x ∈ recs.map Prod.snd, x = 0 ∨ x = 1 := fun x hx => by
    obtain ⟨r, hr, rfl⟩ := List.mem_map.mp hx
    rw [hsc r hr]
    cases r.1 <;> simp
  have hu2 : npUnique (recs.map Prod.snd) = [0, 1] :=
    npUnique_eq_pair h0mem h1mem hall
  have hthr : aucThresholds (recs.map Prod.snd) = [2, 1, 0] := by
    unfold aucThresholds
    dsimp only
    rw [hu2]
    norm_num
  have hP : (0 : ℤ) < specPos recs := by
    unfold specPos
    have hm : rp ∈ recs.filter (fun r => r.1) :=
      List.mem_filter.mpr ⟨hrp, hrp1⟩
    exact_mod_cast List.length_pos.mpr (List.ne_nil_of_mem hm)
  have hN : (0 : ℤ) < specNeg recs := by
    unfold specNeg
    have hm : rn ∈ recs.filter (fun r => !r.1) :=
      List.mem_filter.mpr ⟨hrn, by rw [hrn1]; rfl⟩
    exact_mod_cast List.length_pos.mpr (List.ne_nil_of_mem hm)
  obtain ⟨hc2, hc1, hc0⟩ := perfect_counts recs hsc
  have hcounts : countsList recs =
      [⟨0, 0, specPos recs, specNeg recs⟩, ⟨specPos recs, 0, 0, specNeg recs⟩,
        ⟨specPos recs, specNeg recs, 0, 0⟩] := by
    rw [countsList_eq_spec recs hne, hthr, List.map_cons, List.map_cons,
      List.map_cons, List.map_nil, hc2, hc1, hc0]
  constructor
  · unfold aurocClass
    dsimp only
    rw [hcounts]
    exact auroc_fold_both hP hN
  · unfold auprcClass
    dsimp only
    rw [hcounts]
    exact auprc_fold_both hP hN

/-- Scenario with only positive records: AUROC is NaN, AUPRC is 1. -/
theorem perfect_all_pos (recs : List (Bool × ℚ)) (hne : recs ≠ [])
    (hsc : ∀ r ∈ recs, r.2 = if r.1 then 1 else 0)
    (hallpos : ∀ r ∈ recs, r.1 = true) :
    aurocClass recs = none ∧ auprcClass recs = some 1 := by
  obtain ⟨rp, hrp⟩ := List.exists_mem_of_ne_nil recs hne
  have hrp1 : rp.1 = true := hallpos rp hrp
  have h1mem : (1 : ℚ) ∈ recs.map Prod.snd :=
    List.mem_map.mpr ⟨rp, hrp, by rw [hsc rp hrp, hrp1]; simp⟩
  have hall1 : ∀ x ∈ recs.map Prod.snd, x = 1 := fun x hx => by
    obtain ⟨r, hr, rfl⟩ := List.mem_map.mp hx
    rw [hsc r hr, hallpos r hr]
    simp
  have hu1 : npUnique (recs.map Prod.snd) = [1] :=
    npUnique_eq_single h1mem hall1
  have hthr : aucThresholds (recs.map Prod.snd) = [2, 1] := by
    unfold aucThresholds
    dsimp only
    rw [hu1]
    norm_num
  have hP : (0 : ℤ) < specPos recs := by
    unfold specPos
    have hm : rp ∈ recs.filter (fun r => r.1) :=
      List.mem_filter.mpr ⟨hrp, hrp1⟩
    exact_mod_cast List.length_pos.mpr (List.ne_nil_of_mem hm)
  have hN0 : specNeg recs = 0 := by
    unfold specNeg
    rw [List.filter_eq_nil_iff.mpr fun x hx => by simp [hallpos x hx]]
    rfl
  obtain ⟨hc2, hc1, _⟩ := perfect_counts recs hsc
  have hcounts : countsList recs =
      [⟨0, 0, specPos recs, 0⟩, ⟨specPos recs, 0, 0, 0⟩] := by
    rw [countsList_eq_spec recs hne, hthr, List.map_cons, List.map_cons,
      List.map_nil, hc2, hc1, hN0]
  constructor
  · unfold aurocClass
    dsimp only
    rw [hcounts]
    exact auroc_fold_allpos hP
  · unfold auprcClass
    dsimp only
    rw [hcounts]
    exact auprc_fold_allpos hP

/-- Scenario with only negative records: AUROC and AUPRC are both NaN. -/
theorem perfect_all_neg (recs : List (Bool × ℚ)) (hne : recs ≠ [])
    (hsc : ∀ r ∈ recs, r.2 = if r.1 then 1 else 0)
    (hallneg : ∀ r ∈ recs, r.1 = false) :
    aurocClass recs = none ∧ auprcClass recs = none := by
  obtain ⟨rn, hrn⟩ := List.exists_mem_of_ne_nil recs hne
  have hrn1 : rn.1 = false := hallneg rn hrn
  have h0mem : (0 : ℚ) ∈ recs.map Prod.snd :=
    List.mem_map.mpr ⟨rn, hrn, by rw [hsc rn hrn, hrn1]; simp⟩
  have hall0 : ∀ x ∈ recs.map Prod.snd, x = 0 := fun x hx => by
    obtain ⟨r, hr, rfl⟩ := List.mem_map.mp hx
    rw [hsc r hr, hallneg r hr]
    simp
  have hu0 : npUnique (recs.map Prod.snd) = [0] :=
    npUnique_eq_single h0mem hall0
  have hthr : aucThresholds (recs.map Prod.snd) = [1, 0] := by
    unfold aucThresholds
    dsimp only
    rw [hu0]
    norm_num
  have hP0 : specPos recs = 0 := by
    unfold specPos
    rw [List.filter_eq_nil_iff.mpr fun x hx => by simp [hallneg x hx]]
    rfl
  obtain ⟨_, hc1, hc0⟩ := perfect_counts recs hsc
  have hcounts : countsList recs =
      [⟨0, 0, 0, specNeg recs⟩, ⟨0, specNeg recs, 0, 0⟩] := by
    rw [countsList_eq_spec recs hne, hthr, List.map_cons, List.map_cons,
      List.map_nil, hc1, hc0, hP0]
  constructor
  · unfold aurocClass
    dsimp only
    rw [hcounts]
    exact auroc_fold_allneg
  · unfold auprcClass
    dsimp only
    rw [hcounts]
    exact auprc_fold_allneg

/-- **C9 (amended).**  With `B = L` and scores 1 on the truly positive
records of a class and 0 on the others: AUPRC is 1.0 for a class with at
least one positive record; AUROC is 1.0 for a class with at least one
positive and at least one negative record; a class with no positive records
has both AUROC and AUPRC NaN; and a class positive on every record has
AUROC NaN (its TNR denominator is always zero) though AUPRC is 1.0.  (The
original claim allowed NaN only for a class that never appears; the
all-positive case refutes it — see the counterexample.) -/
theorem auc_perfect_classifier (recs : List (Bool × ℚ)) (hne : recs ≠ [])
    (hsc : ∀ r ∈ recs, r.2 = if r.1 then 1 else 0) :
    ((∃ r ∈ recs, r.1 = true) → auprcClass recs = some 1) ∧
    ((∃ r ∈ recs, r.1 = true) → (∃ r ∈ recs, r.1 = false) →
      aurocClass recs = some 1) ∧
    ((∀ r ∈ recs, r.1 = false) →
      aurocClass recs = none ∧ auprcClass recs = none) ∧
    ((∀ r ∈ recs, r.1 = true) →
      aurocClass recs = none ∧ auprcClass recs = some 1) := by
  refine ⟨?_, ?_, perfect_all_neg recs hne hsc, perfect_all_pos recs hne hsc⟩
  · intro hpos
    by_cases hneg : ∃ r ∈ recs, r.1 = false
    · exact (perfect_both recs hne hsc hpos hneg).2
    · push_neg at hneg
      have hallpos : ∀ r ∈ recs, r.1 = true := fun r hr => by
        cases hr1 : r.1
        · exact absurd hr1 (hneg r hr)
        · rfl
      exact (perfect_all_pos recs hne hsc hallpos).2
  · intro hpos hneg
    exact (perfect_both recs hne hsc hpos hneg).1

/-- C9 counterexample: the one-record dataset `[(true, 1)]` — the class
appears (it has a positive record and `S` is maximal there) yet its AUROC is
NaN, not 1.0, because there are no negative records. -/
theorem auc_perfect_classifier_cex :
    (∃ r ∈ [((true : Bool), (1 : ℚ))], r.1 = true) ∧
    aurocClass [((true : Bool), (1 : ℚ))] = none ∧
    aurocClass [((true : Bool), (1 : ℚ))] ≠ some 1 := by
  have h := perfect_all_pos [((true : Bool), (1 : ℚ))] (by simp)
    (by
      rintro r hr
      rcases List.mem_singleton.mp hr with rfl
      rfl)
    (by
      rintro r hr
      rcases List.mem_singleton.mp hr with rfl
      rfl)
  exact ⟨⟨((true : Bool), (1 : ℚ)), List.mem_singleton_self _, rfl⟩, h.1,
    by rw [h.1]; simp⟩

/-- Witness for C9 on a dataset with one positive and one negative
record. -/
theorem auc_perfect_classifier_witness :
    auprcClass [((true : Bool), (1 : ℚ)), ((false : Bool), (0 : ℚ))] = some 1 ∧
    aurocClass [((true : Bool), (1 : ℚ)), ((false : Bool), (0 : ℚ))] = some 1 := by
  have h := auc_perfect_classifier
    [((true : Bool), (1 : ℚ)), ((false : Bool), (0 : ℚ))] (by simp)
    (by
      rintro r hr
      rcases List.mem_cons.mp hr with rfl | hr'
      · rfl
      · rcases List.mem_singleton.mp hr' with rfl
        rfl)
  refine ⟨h.1 ⟨((true : Bool), (1 : ℚ)), List.mem_cons_self _ _, rfl⟩, ?_⟩
  exact h.2.1 ⟨((true : Bool), (1 : ℚ)), List.mem_cons_self _ _, rfl⟩
    ⟨((false : Bool), (0 : ℚ)), by simp, rfl⟩

end Cinc2021
